import Mathlib

/-!
Verification of the schema search-filter in
`src/packages/elements-core/src/components/Docs/Model/Model.tsx`.

The filter (`filterSchema` / `filterProperties`, lines 57-113 of the source)
walks a JSON-Schema `properties` map and keeps exactly the properties whose
key or description contains the search string, or that have a matching
descendant, tracking the greatest depth of a direct match.

Two embeddings are developed:

* a typed embedding (`SchemaNode`) of the schema shape the component is
  designed for (spec sections 3 and 6: optional `type`, `description`,
  nested `properties` map, `items` node, plus passthrough fields); JavaScript
  objects are modelled as association lists in insertion order with unique
  keys, and `undefined` fields as `none`;
* an untyped JavaScript-value embedding (`JsValue`) used to settle the
  claims about malformed inputs, where field access on `null` raises a
  `TypeError` (modelled with `Except`).
-/

/-- JavaScript `String.prototype.includes`: case-sensitive substring test. -/
def jsIncludes (s sub : String) : Bool :=
  decide (List.IsInfix sub.data s.data)

/-- A schema node as consumed by the filter (spec section 3): optional
`type` and `description` strings, an optional nested `properties` map
(association list in insertion order), an optional `items` node, and the
remaining fields of the node, which the filter never inspects and only
copies (`extra`, modelled as an uninterpreted association list of strings). -/
inductive SchemaNode : Type where
  | mk (type : Option String) (description : Option String)
       (properties : Option (List (String × SchemaNode)))
       (items : Option SchemaNode)
       (extra : List (String × String)) : SchemaNode

/-- Field access `value.type`. -/
def SchemaNode.type : SchemaNode → Option String
  | .mk t _ _ _ _ => t

/-- Field access `value.description`. -/
def SchemaNode.description : SchemaNode → Option String
  | .mk _ d _ _ _ => d

/-- Field access `value.properties`. -/
def SchemaNode.properties : SchemaNode → Option (List (String × SchemaNode))
  | .mk _ _ p _ _ => p

/-- Field access `value.items`. -/
def SchemaNode.items : SchemaNode → Option SchemaNode
  | .mk _ _ _ i _ => i

/-- The passthrough fields of a node. -/
def SchemaNode.extra : SchemaNode → List (String × String)
  | .mk _ _ _ _ e => e

/-- The object spread `\x7b...value, properties: filteredChild\x7d`
(source line 75): every field of `value` is kept except `properties`,
which is replaced. -/
def SchemaNode.withProps : SchemaNode → List (String × SchemaNode) → SchemaNode
  | .mk t d _ i e, l => .mk t d (some l) i e

/-- The inner spread `\x7b...value.items, properties: filteredChildItems\x7d`
(source line 84): the items node keeps all its fields except `properties`.
When `items` is `undefined` the spread of `undefined` contributes nothing. -/
def itemsWithProps : Option SchemaNode → List (String × SchemaNode) → SchemaNode
  | some (.mk t d _ i e), l => .mk t d (some l) i e
  | none, l => .mk none none (some l) none []

/-- The object spread on source lines 82-85: every field of `value` is kept
except `items`, which is replaced by a copy of `value.items` whose
`properties` field is the filtered children. -/
def SchemaNode.withItemsProps : SchemaNode → List (String × SchemaNode) → SchemaNode
  | .mk t d p i e, l => .mk t d p (some (itemsWithProps i l)) e

mutual

/-- Size of a schema node, used as the termination measure of the filter. -/
def SchemaNode.nsize : SchemaNode → Nat
  | .mk _ _ props it _ => 1 + nsizeProps props + nsizeItems it

/-- Size of an optional properties map. -/
def nsizeProps : Option (List (String × SchemaNode)) → Nat
  | none => 0
  | some l => 1 + nsizeEntries l

/-- Size of the entry list of a properties map. -/
def nsizeEntries : List (String × SchemaNode) → Nat
  | [] => 0
  | (_, v) :: rest => 1 + SchemaNode.nsize v + nsizeEntries rest

/-- Size of an optional items node. -/
def nsizeItems : Option SchemaNode → Nat
  | none => 0
  | some v => SchemaNode.nsize v

end

/-- Source line 66: `key.includes(searchString) ||
(value.description && value.description.includes(searchString))`.
An absent description is `undefined` (falsy) and an empty description is
falsy as well, so neither can produce a match. -/
def directMatch (searchString key : String) (value : SchemaNode) : Bool :=
  jsIncludes key searchString ||
    (match value.description with
     | some d => d ≠ "" && jsIncludes d searchString
     | none => false)

/-- Source lines 90-93 together with the placements on lines 75 and 82:
the entries the loop body adds to `filtered` for one key.  If a container
copy was placed, `filtered.hasOwnProperty(key)` holds and line 92 is
skipped; otherwise the original `value` is placed exactly when the
`include` flag is set. -/
def placedEntry (key : String) (value : SchemaNode)
    (st : Option (String × SchemaNode) × Bool × Nat) :
    List (String × SchemaNode) :=
  match st.1 with
  | some e => [e]
  | none => if st.2.1 then [(key, value)] else []

mutual

/-- Source lines 62-96, `filterProperties(properties, currentDepth)`.
The mutable outer variable `maxDepth` of `filterSchema` is threaded through
explicitly: the third argument is its value on entry and the second
component of the result is its value on exit.  Line 64 is the
`if (!properties) return filtered` guard (in the typed model only an absent
map is falsy). -/
def filterProperties (searchString : String)
    (properties : Option (List (String × SchemaNode)))
    (currentDepth maxDepth : Nat) : List (String × SchemaNode) × Nat :=
  match properties with
  | none => ([], maxDepth)
  | some entries => filterEntries searchString entries currentDepth maxDepth
termination_by nsizeProps properties
decreasing_by
  simp [nsizeProps]

/-- The `for (const [key, value] of Object.entries(properties))` loop of
source lines 65-94, processing the entries in insertion order.  Each
iteration contributes the entries placed for `key` (`placedEntry` below)
followed by the contributions of the later iterations; keys of a
JavaScript object are unique, so the `hasOwnProperty` guard on line 91
only ever observes this iteration's own container placement. -/
def filterEntries (searchString : String)
    (entries : List (String × SchemaNode))
    (currentDepth maxDepth : Nat) : List (String × SchemaNode) × Nat :=
  match entries with
  | [] => ([], maxDepth)
  | (key, value) :: rest =>
    let includeFlag := directMatch searchString key value
    let maxDepth1 :=
      if includeFlag ∧ maxDepth < currentDepth then currentDepth else maxDepth
    let st := entryStep searchString key value currentDepth maxDepth1 includeFlag
    let tail := filterEntries searchString rest currentDepth st.2.2
    (placedEntry key value st ++ tail.1, tail.2)
termination_by nsizeEntries entries
decreasing_by
  all_goals simp [nsizeEntries]
  all_goals omega

/-- Source lines 71-88 for one entry: the object branch (line 71) and array
branch (line 78).  Returns the container copy placed for this key (if any),
the final `include` flag, and the value of `maxDepth` after the recursive
calls.  In the typed model `value.properties` is truthy iff present
(an empty map `\x7b\x7d` is truthy) and `value.items` is always
object-typed when present. -/
def entryStep (searchString key : String) (value : SchemaNode)
    (currentDepth maxDepth1 : Nat) (includeFlag : Bool) :
    Option (String × SchemaNode) × Bool × Nat :=
  if value.type = some "object" ∧ value.properties.isSome then
    let fc := filterProperties searchString value.properties (currentDepth + 1) maxDepth1
    if 0 < fc.1.length then (some (key, value.withProps fc.1), true, fc.2)
    else (none, includeFlag, fc.2)
  else if value.type = some "array" ∧ value.items.isSome then
    let fc := filterProperties searchString (value.items.bind SchemaNode.properties)
      (currentDepth + 1) maxDepth1
    if 0 < fc.1.length then (some (key, value.withItemsProps fc.1), true, fc.2)
    else (none, includeFlag, fc.2)
  else (none, includeFlag, maxDepth1)
termination_by SchemaNode.nsize value
decreasing_by
  · rcases value with ⟨t, d, p, i, e⟩
    simp only [SchemaNode.nsize, SchemaNode.properties]
    omega
  · rcases value with ⟨t, d, p, i, e⟩
    simp only [SchemaNode.nsize, SchemaNode.items]
    rcases i with _ | ⟨t2, d2, p2, i2, e2⟩
    · simp only [Option.bind, nsizeProps, nsizeItems]
      omega
    · simp only [Option.bind, SchemaNode.properties, nsizeItems, SchemaNode.nsize]
      omega

end

/-- Source lines 58-101, `filterSchema(schema, searchString)`: runs
`filterProperties(schema, 0)` with `maxDepth` starting at `0` and returns
the filtered map together with the final `maxDepth`. -/
def filterSchema (schema : Option (List (String × SchemaNode)))
    (searchString : String) : List (String × SchemaNode) × Nat :=
  filterProperties searchString schema 0 0

/-- Source lines 103-112, the body of the filter effect: the schema is
deep-copied (the identity on immutable values), and when the search value
is truthy and longer than one character its `properties` field is replaced
by the filtered map and the expansion depth is set to the computed
`maxDepth`; otherwise the schema is left unchanged and the expansion depth
is reset to the default `2`. -/
def runFilterEffect (data : SchemaNode) (searchValue : String) : SchemaNode × Nat :=
  if searchValue ≠ "" ∧ 1 < searchValue.length then
    let r := filterSchema data.properties searchValue
    (data.withProps r.1, r.2)
  else (data, 2)

/-- The children map the filter recurses into (source lines 71-79): the
nested `properties` of an object-typed node, the `items.properties` of an
array-typed node with an `items` object, and nothing otherwise. -/
def childrenOf (value : SchemaNode) : List (String × SchemaNode) :=
  if value.type = some "object" ∧ value.properties.isSome then
    value.properties.getD []
  else if value.type = some "array" ∧ value.items.isSome then
    (value.items.bind SchemaNode.properties).getD []
  else []

/-- The children of a node are strictly smaller than the node; this is the
termination argument shared by every recursion through `childrenOf`. -/
def childrenOfBound (value : SchemaNode) :
    nsizeEntries (childrenOf value) < SchemaNode.nsize value := by
  rcases value with ⟨t, d, p, i, e⟩
  unfold childrenOf
  split_ifs with h1 h2
  · rcases p with _ | l
    · simp [SchemaNode.properties] at h1
    · simp only [SchemaNode.properties, Option.getD, SchemaNode.nsize, nsizeProps]
      omega
  · rcases i with _ | ⟨t2, d2, p2, i2, e2⟩
    · simp [SchemaNode.items] at h2
    · rcases p2 with _ | l2 <;>
        simp only [SchemaNode.items, Option.bind, SchemaNode.properties, Option.getD,
          nsizeEntries, SchemaNode.nsize, nsizeProps, nsizeItems] <;>
        omega
  · simp only [nsizeEntries, SchemaNode.nsize]
    omega

/-- Whether some entry of the map matches directly, or has a descendant
(through the `childrenOf` structure, at any depth) that matches directly. -/
def deepMatchList (searchString : String) (entries : List (String × SchemaNode)) : Bool :=
  match entries with
  | [] => false
  | (key, value) :: rest =>
    (directMatch searchString key value ||
      deepMatchList searchString (childrenOf value)) ||
    deepMatchList searchString rest
termination_by nsizeEntries entries
decreasing_by
  · have := childrenOfBound v
    simp only [nsizeEntries]
    omega
  · simp only [nsizeEntries]
    omega

/-- A node directly matches, or some descendant of it directly matches. -/
def deepMatchNode (searchString key : String) (value : SchemaNode) : Bool :=
  directMatch searchString key value || deepMatchList searchString (childrenOf value)

/-- Written from the spec for the refinement claim about `maxDepth`
(spec section 3): the greatest depth at which a node of the map achieves a
direct match, where the entries of the map itself sit at depth `d` and
children one level deeper; `0` when nothing matches. -/
def dirMaxList (searchString : String) (entries : List (String × SchemaNode))
    (d : Nat) : Nat :=
  match entries with
  | [] => 0
  | (key, value) :: rest =>
    max (max (if directMatch searchString key value then d else 0)
      (dirMaxList searchString (childrenOf value) (d + 1)))
      (dirMaxList searchString rest d)
termination_by nsizeEntries entries
decreasing_by
  · have := childrenOfBound v
    simp only [nsizeEntries]
    omega
  · simp only [nsizeEntries]
    omega

/-- The node reached from a properties map by following a non-empty path of
keys, each step descending through `childrenOf`.  The node at path `[k]`
is the top-level property `k` (depth `0`), so a node at path `p` sits at
depth `p.length - 1`. -/
def nodeAt (props : List (String × SchemaNode)) : List String → Option SchemaNode
  | [] => none
  | [k] => List.lookup k props
  | k :: rest =>
    match List.lookup k props with
    | some v => nodeAt (childrenOf v) rest
    | none => none

/-- Every properties map reachable from some entry of the list through
`childrenOf` has pairwise distinct keys. -/
def childrenNodup (entries : List (String × SchemaNode)) : Bool :=
  match entries with
  | [] => true
  | (_, value) :: rest =>
    (decide (((childrenOf value).map Prod.fst).Nodup) &&
      childrenNodup (childrenOf value)) &&
    childrenNodup rest
termination_by nsizeEntries entries
decreasing_by
  · have := childrenOfBound v
    simp only [nsizeEntries]
    omega
  · simp only [nsizeEntries]
    omega

/-- The map and every nested map reachable through `childrenOf` have
pairwise distinct keys; JavaScript objects always satisfy this. -/
def nodupKeysDeep (l : List (String × SchemaNode)) : Bool :=
  decide ((l.map Prod.fst).Nodup) && childrenNodup l

/-- A linear chain of object-typed nodes of the given nesting depth, used
to exhibit unbounded recursion depth across inputs. -/
def chainSchema : Nat → SchemaNode
  | 0 => .mk none none none none []
  | n + 1 => .mk (some "object") none (some [("k", chainSchema n)]) none []

mutual

/-- Fuel-indexed mirror of `filterProperties`: each descent into a
properties map consumes one unit of fuel and `none` is returned when the
fuel runs out, making the recursion depth of the unguarded source
recursion explicit. -/
def filterPropertiesF (searchString : String) (fuel : Nat)
    (properties : Option (List (String × SchemaNode)))
    (currentDepth maxDepth : Nat) : Option (List (String × SchemaNode) × Nat) :=
  match fuel with
  | 0 => none
  | fuel + 1 =>
    match properties with
    | none => some ([], maxDepth)
    | some entries => filterEntriesF searchString fuel entries currentDepth maxDepth
termination_by (fuel, 0, 0)

/-- Fuel-indexed mirror of `filterEntries`. -/
def filterEntriesF (searchString : String) (fuel : Nat)
    (entries : List (String × SchemaNode))
    (currentDepth maxDepth : Nat) : Option (List (String × SchemaNode) × Nat) :=
  match entries with
  | [] => some ([], maxDepth)
  | (key, value) :: rest =>
    let includeFlag := directMatch searchString key value
    let maxDepth1 :=
      if includeFlag ∧ maxDepth < currentDepth then currentDepth else maxDepth
    match entryStepF searchString fuel key value currentDepth maxDepth1 includeFlag with
    | none => none
    | some st =>
      match filterEntriesF searchString fuel rest currentDepth st.2.2 with
      | none => none
      | some tail => some (placedEntry key value st ++ tail.1, tail.2)
termination_by (fuel, 2, entries.length)

/-- Fuel-indexed mirror of `entryStep`. -/
def entryStepF (searchString : String) (fuel : Nat) (key : String)
    (value : SchemaNode) (currentDepth maxDepth1 : Nat) (includeFlag : Bool) :
    Option (Option (String × SchemaNode) × Bool × Nat) :=
  if value.type = some "object" ∧ value.properties.isSome then
    match filterPropertiesF searchString fuel value.properties (currentDepth + 1) maxDepth1 with
    | none => none
    | some fc =>
      if 0 < fc.1.length then some (some (key, value.withProps fc.1), true, fc.2)
      else some (none, includeFlag, fc.2)
  else if value.type = some "array" ∧ value.items.isSome then
    match filterPropertiesF searchString fuel (value.items.bind SchemaNode.properties)
        (currentDepth + 1) maxDepth1 with
    | none => none
    | some fc =>
      if 0 < fc.1.length then some (some (key, value.withItemsProps fc.1), true, fc.2)
      else some (none, includeFlag, fc.2)
  else some (none, includeFlag, maxDepth1)
termination_by (fuel, 1, 0)

end

/-- An untyped JavaScript value as it can appear in a parsed JSON schema:
`null`, booleans, numbers, strings, arrays and objects (association lists
of fields in insertion order).  `undefined` never occurs inside parsed
JSON; an absent field is modelled as `Option.none` at the access site. -/
inductive JsValue : Type where
  | null : JsValue
  | bool (b : Bool) : JsValue
  | num (n : Int) : JsValue
  | str (s : String) : JsValue
  | arr (elems : List JsValue) : JsValue
  | obj (fields : List (String × JsValue)) : JsValue

mutual

/-- Termination measure for the untyped filter: only containers weigh
anything, since the recursion descends only through object fields and
array elements. -/
def jsSizeV : JsValue → Nat
  | .null => 0
  | .bool _ => 0
  | .num _ => 0
  | .str _ => 0
  | .arr es => 1 + jsSizeL es
  | .obj fs => 1 + jsSizeF fs

/-- Measure of a list of array elements. -/
def jsSizeL : List JsValue → Nat
  | [] => 0
  | v :: vs => 1 + jsSizeV v + jsSizeL vs

/-- Measure of a list of object fields. -/
def jsSizeF : List (String × JsValue) → Nat
  | [] => 0
  | (_, v) :: fs => 1 + jsSizeV v + jsSizeF fs

end

/-- JavaScript property access `v.name` for the field names the filter
reads (`type`, `description`, `properties`, `items`): a `TypeError` on
`null`, the field (or `undefined`, i.e. `none`) on an object, and
`undefined` on any other primitive or on an array, none of which has own
properties under those names. -/
def jsField : JsValue → String → Except Unit (Option JsValue)
  | .null, _ => .error ()
  | .obj fs, k => .ok (List.lookup k fs)
  | _, _ => .ok none

/-- JavaScript truthiness of a value. -/
def jsTruthy : JsValue → Bool
  | .null => false
  | .bool b => b
  | .num n => n ≠ 0
  | .str s => s ≠ ""
  | .arr _ => true
  | .obj _ => true

/-- Truthiness of a possibly-`undefined` value. -/
def jsTruthyOpt : Option JsValue → Bool
  | none => false
  | some v => jsTruthy v

/-- `typeof x === 'object'` for a possibly-`undefined` value (`typeof null`
is `'object'` in JavaScript). -/
def jsTypeofObject : Option JsValue → Bool
  | some .null => true
  | some (.obj _) => true
  | some (.arr _) => true
  | _ => false

/-- `Object.entries` of the values the filter can reach it with: the fields
of an object, the index-value pairs of an array, the indexed characters of
a string, and nothing for the remaining primitives. -/
def jsEntries : JsValue → List (String × JsValue)
  | .obj fs => fs
  | .arr es => (es.enum.map fun p => (toString p.1, p.2))
  | .str s => (s.data.enum.map fun p => (toString p.1, .str (String.mk [p.2])))
  | _ => []

/-- The index-character entries of a string, as `Object.entries` yields
them. -/
def stringEntries (s : String) : List (String × JsValue) :=
  s.data.enum.map fun p => (toString p.1, .str (String.mk [p.2]))

/-- The object literal `\x7b...v, name: x\x7d`: the own enumerable entries
of `v` in order, with field `name` overridden in place when already
present and appended otherwise. -/
def jsSpreadSet (v : JsValue) (name : String) (x : JsValue) : JsValue :=
  .obj (if (jsEntries v).any (fun p => p.1 == name)
    then (jsEntries v).map fun p => if p.1 == name then (name, x) else p
    else jsEntries v ++ [(name, x)])

/-- The check `value.description && value.description.includes(q)` once the
`description` field has been read: falsy values yield `false`; a string
uses substring search; an array uses `Array.prototype.includes`
(element-wise strict equality with `q`); any other truthy value has no
`includes` method and throws a `TypeError`. -/
def jsDescrMatch : Option JsValue → String → Except Unit Bool
  | none, _ => .ok false
  | some .null, _ => .ok false
  | some (.bool b), _ => if b then .error () else .ok false
  | some (.num n), _ => if n = 0 then .ok false else .error ()
  | some (.str s), q => .ok (s ≠ "" && jsIncludes s q)
  | some (.arr es), q =>
    .ok (es.any fun v => match v with | .str s => decide (s = q) | _ => false)
  | some (.obj _), _ => .error ()

/-- Source line 66 in the untyped model.  `key.includes(q)` short-circuits,
so the `description` access (which throws on a `null` node) only runs when
the key does not match. -/
def jsIncludeCheck (searchString key : String) (value : JsValue) :
    Except Unit Bool :=
  if jsIncludes key searchString then .ok true
  else
    match jsField value "description" with
    | .error e => .error e
    | .ok dfield => jsDescrMatch dfield searchString

/-- Source lines 90-93 in the untyped model. -/
def jsPlacedEntry (key : String) (value : JsValue)
    (st : Option (String × JsValue) × Bool × Nat) : List (String × JsValue) :=
  match st.1 with
  | some e => [e]
  | none => if st.2.1 then [(key, value)] else []

/-- The loop body specialised to entries whose values are single-character
strings (the entries of a string `properties` value): property access on
such a value yields `undefined`, so the description test is `false`, no
container branch fires, no error can occur, and an entry is kept exactly
when its key matches. -/
def jsLeafRun (searchString : String) (entries : List (String × JsValue))
    (currentDepth maxDepth : Nat) : List (String × JsValue) × Nat :=
  match entries with
  | [] => ([], maxDepth)
  | (key, value) :: rest =>
    let includeFlag := jsIncludes key searchString
    let maxDepth1 :=
      if includeFlag ∧ maxDepth < currentDepth then currentDepth else maxDepth
    let tail := jsLeafRun searchString rest currentDepth maxDepth1
    ((if includeFlag then [(key, value)] else []) ++ tail.1, tail.2)

/-- The strict comparison `x === 'name'` of a possibly-`undefined` value
with a string literal. -/
def isTypeStr (tfield : Option JsValue) (t : String) : Bool :=
  match tfield with
  | some (.str s) => s == t
  | _ => false

/-- Weight of a possibly-`undefined` argument to the untyped filter. -/
def jsSizeOpt : Option JsValue → Nat
  | none => 0
  | some v => 1 + jsSizeV v

/-- A successful field access that yields a value can only happen on an
object, and the value is the field looked up. -/
def jsFieldShape (v : JsValue) (k : String) (w : JsValue)
    (h : jsField v k = .ok (some w)) :
    ∃ fs, v = .obj fs ∧ List.lookup k fs = some w := by
  cases v <;> simp [jsField] at h
  case obj fs => exact ⟨fs, rfl, h⟩

/-- A field of an object weighs strictly less than the object's fields. -/
def lookupWeight (k : String) (fs : List (String × JsValue)) (w : JsValue)
    (h : List.lookup k fs = some w) : 1 + jsSizeV w ≤ jsSizeF fs := by
  induction fs with
  | nil => simp [List.lookup] at h
  | cons p rest ih =>
    obtain ⟨k', v'⟩ := p
    rw [List.lookup_cons] at h
    by_cases hk : (k == k') = true
    · simp only [hk, Option.some.injEq] at h
      subst h
      simp only [jsSizeF]
      omega
    · simp only [hk, Bool.false_eq_true] at h
      have := ih h
      simp only [jsSizeF]
      omega

/-- Indexing the elements of an array does not change their total weight. -/
def enumWeight (n : Nat) (es : List JsValue) :
    jsSizeF ((List.enumFrom n es).map fun p => (toString p.1, p.2)) = jsSizeL es := by
  induction es generalizing n with
  | nil => simp [List.enumFrom, jsSizeF, jsSizeL]
  | cons v vs ih => simp [List.enumFrom, jsSizeF, jsSizeL, ih]

mutual

/-- Source lines 62-96 over untyped JavaScript values, with `maxDepth`
threaded as in the typed model and a `TypeError` modelled as
`Except.error`.  Line 64 returns the empty map for a falsy `properties`
argument; `Object.entries` of a truthy non-container primitive is empty,
except for a string, whose indexed single-character entries are processed
by the specialised `jsLeafRun` (no container branch can fire for them and
no error can occur, so the loop body reduces to the key test). -/
def jsFilterProperties (searchString : String) (properties : Option JsValue)
    (currentDepth maxDepth : Nat) :
    Except Unit (List (String × JsValue) × Nat) :=
  match properties with
  | none => .ok ([], maxDepth)
  | some v =>
    if jsTruthy v then
      match v with
      | .str s => .ok (jsLeafRun searchString (stringEntries s) currentDepth maxDepth)
      | .obj fs => jsFilterEntries searchString fs currentDepth maxDepth
      | .arr es =>
        jsFilterEntries searchString ((List.enum es).map fun p => (toString p.1, p.2))
          currentDepth maxDepth
      | _ => .ok ([], maxDepth)
    else .ok ([], maxDepth)
termination_by jsSizeOpt properties
decreasing_by
  all_goals simp only [jsSizeOpt, jsSizeV, List.enum]
  all_goals try rw [enumWeight]
  all_goals omega

/-- The entries loop of source lines 65-94 over untyped values.  The
include check of line 66 runs first and its `TypeError` (a `null` node
without a key match) propagates; the branch step may throw on a `null`
node whose key matched the query. -/
def jsFilterEntries (searchString : String) (entries : List (String × JsValue))
    (currentDepth maxDepth : Nat) :
    Except Unit (List (String × JsValue) × Nat) :=
  match entries with
  | [] => .ok ([], maxDepth)
  | (key, value) :: rest =>
    match jsIncludeCheck searchString key value with
    | .error e => .error e
    | .ok includeFlag =>
      let maxDepth1 :=
        if includeFlag ∧ maxDepth < currentDepth then currentDepth else maxDepth
      match jsEntryStep searchString key value currentDepth maxDepth1 includeFlag with
      | .error e => .error e
      | .ok st =>
        match jsFilterEntries searchString rest currentDepth st.2.2 with
        | .error e => .error e
        | .ok tail => .ok (jsPlacedEntry key value st ++ tail.1, tail.2)
termination_by jsSizeF entries
decreasing_by
  · simp only [jsSizeF]
    omega
  · simp only [jsSizeF]
    omega

/-- Source lines 71-88 over untyped values: reading `value.type` throws on
a `null` node; the object branch requires `type === 'object'` and a truthy
`properties`; the array branch requires `type === 'array'` and a truthy
`items` of `typeof 'object'` (an object or an array; `null` is excluded by
truthiness); the copies are object spreads. -/
def jsEntryStep (searchString key : String) (value : JsValue)
    (currentDepth maxDepth1 : Nat) (includeFlag : Bool) :
    Except Unit (Option (String × JsValue) × Bool × Nat) :=
  match htype : jsField value "type" with
  | .error e => .error e
  | .ok tfield =>
    match hprops : jsField value "properties" with
    | .error e => .error e
    | .ok pfield =>
      match hitems : jsField value "items" with
      | .error e => .error e
      | .ok ifield =>
        if hc1 : isTypeStr tfield "object" ∧ jsTruthyOpt pfield then
          match jsFilterProperties searchString pfield (currentDepth + 1) maxDepth1 with
          | .error e => .error e
          | .ok fc =>
            if 0 < fc.1.length then
              .ok (some (key, jsSpreadSet value "properties" (.obj fc.1)), true, fc.2)
            else .ok (none, includeFlag, fc.2)
        else if hc2 : isTypeStr tfield "array" ∧ jsTruthyOpt ifield ∧ jsTypeofObject ifield then
          match hif : ifield with
          | some it =>
            match hw : jsField it "properties" with
            | .error e => .error e
            | .ok wfield =>
              match jsFilterProperties searchString wfield (currentDepth + 1) maxDepth1 with
              | .error e => .error e
              | .ok fc =>
                if 0 < fc.1.length then
                  .ok (some (key,
                    jsSpreadSet value "items" (jsSpreadSet it "properties" (.obj fc.1))),
                    true, fc.2)
                else .ok (none, includeFlag, fc.2)
          | none => .ok (none, includeFlag, maxDepth1)
        else .ok (none, includeFlag, maxDepth1)
termination_by jsSizeV value
decreasing_by
  · obtain ⟨hc1a, _⟩ := hc1
    rw [show tfield = some (.str "object") by
      rcases tfield with _ | tv
      · simp [isTypeStr] at hc1a
      · rcases tv <;> simp_all [isTypeStr]] at htype
    obtain ⟨fs, rfl, hlk⟩ := jsFieldShape value "type" _ htype
    simp only [jsField, Except.ok.injEq] at hprops
    rcases pfield with _ | w
    · simp [jsSizeOpt, jsSizeV]
    · have := lookupWeight "properties" fs w (by rw [hprops])
      simp only [jsSizeOpt, jsSizeV]
      omega
  · obtain ⟨hc2a, _, _⟩ := hc2
    rw [show tfield = some (.str "array") by
      rcases tfield with _ | tv
      · simp [isTypeStr] at hc2a
      · rcases tv <;> simp_all [isTypeStr]] at htype
    obtain ⟨fs, rfl, hlk⟩ := jsFieldShape value "type" _ htype
    simp only [jsField, Except.ok.injEq] at hitems
    subst hif
    have hit : 1 + jsSizeV it ≤ jsSizeF fs :=
      lookupWeight "items" fs it (by simpa [jsField] using hitems)
    rcases wfield with _ | w'
    · simp only [jsSizeOpt, jsSizeV]
      omega
    · obtain ⟨gs, hgs, hlk2⟩ := jsFieldShape it "properties" _ hw
      have := lookupWeight "properties" gs w' hlk2
      simp only [jsSizeOpt, jsSizeV]
      rw [hgs] at hit
      simp only [jsSizeV] at hit
      omega

end

/-- Whether a `description` field value lets the check on source line 66
complete without a `TypeError`: absent or falsy values and strings are
fine, and so are arrays (which have an `includes` method); any other
truthy value throws. -/
def benignDesc : Option JsValue → Bool
  | none => true
  | some .null => true
  | some (.bool b) => !b
  | some (.num n) => n == 0
  | some (.str _) => true
  | some (.arr _) => true
  | some (.obj _) => false

mutual

/-- A deep well-behavedness predicate on untyped values: no `null` occurs
as an array element or object field value, and every object's
`description` field (if any) is `benignDesc`.  Every schema the filter can
reach from such a value is processed without a `TypeError`. -/
def jsBenign : JsValue → Bool
  | .null => false
  | .bool _ => true
  | .num _ => true
  | .str _ => true
  | .arr es => jsBenignL es
  | .obj fs => benignDesc (List.lookup "description" fs) && jsBenignF fs

/-- All elements of an array are benign. -/
def jsBenignL : List JsValue → Bool
  | [] => true
  | v :: vs => jsBenign v && jsBenignL vs

/-- All field values of an object are benign. -/
def jsBenignF : List (String × JsValue) → Bool
  | [] => true
  | (_, v) :: fs => jsBenign v && jsBenignF fs

end

/-- Benignness of a possibly-`undefined` value. -/
def jsBenignOpt : Option JsValue → Bool
  | none => true
  | some v => jsBenign v

/-! ### Structural lemmas about the typed filter -/

theorem placedEntry_congr (key : String) (value : SchemaNode)
    (st st' : Option (String × SchemaNode) × Bool × Nat)
    (h1 : st.1 = st'.1) (h2 : st.2.1 = st'.2.1) :
    placedEntry key value st = placedEntry key value st' := by
  unfold placedEntry
  rw [h1, h2]

mutual

/-- The filtered map does not depend on the depth counters, only the
returned `maxDepth` does. -/
theorem filterProperties_fst (q : String)
    (p : Option (List (String × SchemaNode))) (d m d' m' : Nat) :
    (filterProperties q p d m).1 = (filterProperties q p d' m').1 := by
  cases p with
  | none => simp [filterProperties]
  | some l =>
    simp only [filterProperties]
    exact filterEntries_fst q l d m d' m'
termination_by nsizeProps p
decreasing_by
  simp [nsizeProps]

theorem filterEntries_fst (q : String) (l : List (String × SchemaNode))
    (d m d' m' : Nat) :
    (filterEntries q l d m).1 = (filterEntries q l d' m').1 := by
  cases l with
  | nil => simp [filterEntries]
  | cons hd tl =>
    obtain ⟨key, value⟩ := hd
    simp only [filterEntries]
    rw [placedEntry_congr key value _ _
      (entryStep_fst q key value d _ d' _ _).1
      (entryStep_fst q key value d _ d' _ _).2]
    rw [filterEntries_fst q tl d _ d' _]
termination_by nsizeEntries l
decreasing_by
  all_goals simp only [nsizeEntries]
  all_goals omega

theorem entryStep_fst (q key : String) (value : SchemaNode)
    (d m d' m' : Nat) (b : Bool) :
    (entryStep q key value d m b).1 = (entryStep q key value d' m' b).1 ∧
    (entryStep q key value d m b).2.1 = (entryStep q key value d' m' b).2.1 := by
  unfold entryStep
  split_ifs with h1 h2
  · have hf := filterProperties_fst q value.properties (d + 1) m (d' + 1) m'
    simp only [hf]
    split_ifs <;> simp
  · have hf := filterProperties_fst q (value.items.bind SchemaNode.properties)
      (d + 1) m (d' + 1) m'
    simp only [hf]
    split_ifs <;> simp
  · simp
termination_by SchemaNode.nsize value
decreasing_by
  · rcases value with ⟨t, dsc, p, i, e⟩
    simp only [SchemaNode.nsize, SchemaNode.properties]
    omega
  · rcases value with ⟨t, dsc, p, i, e⟩
    simp only [SchemaNode.nsize, SchemaNode.items]
    rcases i with _ | ⟨t2, d2, p2, i2, e2⟩
    · simp only [Option.bind, nsizeProps, nsizeItems]
      omega
    · simp only [Option.bind, SchemaNode.properties, nsizeItems, SchemaNode.nsize]
      omega

end

@[simp] theorem withProps_type (v : SchemaNode) (l : List (String × SchemaNode)) :
    (v.withProps l).type = v.type := by
  cases v; rfl

@[simp] theorem withProps_description (v : SchemaNode) (l : List (String × SchemaNode)) :
    (v.withProps l).description = v.description := by
  cases v; rfl

@[simp] theorem withProps_properties (v : SchemaNode) (l : List (String × SchemaNode)) :
    (v.withProps l).properties = some l := by
  cases v; rfl

@[simp] theorem withProps_items (v : SchemaNode) (l : List (String × SchemaNode)) :
    (v.withProps l).items = v.items := by
  cases v; rfl

@[simp] theorem withProps_extra (v : SchemaNode) (l : List (String × SchemaNode)) :
    (v.withProps l).extra = v.extra := by
  cases v; rfl

@[simp] theorem withProps_withProps (v : SchemaNode) (a b : List (String × SchemaNode)) :
    (v.withProps a).withProps b = v.withProps b := by
  cases v; rfl

@[simp] theorem withItemsProps_type (v : SchemaNode) (l : List (String × SchemaNode)) :
    (v.withItemsProps l).type = v.type := by
  cases v; rfl

@[simp] theorem withItemsProps_description (v : SchemaNode) (l : List (String × SchemaNode)) :
    (v.withItemsProps l).description = v.description := by
  cases v; rfl

@[simp] theorem withItemsProps_properties (v : SchemaNode) (l : List (String × SchemaNode)) :
    (v.withItemsProps l).properties = v.properties := by
  cases v; rfl

@[simp] theorem withItemsProps_extra (v : SchemaNode) (l : List (String × SchemaNode)) :
    (v.withItemsProps l).extra = v.extra := by
  cases v; rfl

@[simp] theorem withItemsProps_items (v : SchemaNode) (l : List (String × SchemaNode)) :
    (v.withItemsProps l).items = some (itemsWithProps v.items l) := by
  cases v; rfl

@[simp] theorem itemsWithProps_properties (i : Option SchemaNode)
    (l : List (String × SchemaNode)) :
    (itemsWithProps i l).properties = some l := by
  rcases i with _ | ⟨t, d, p, i', e⟩ <;> rfl

@[simp] theorem withItemsProps_withItemsProps (v : SchemaNode)
    (a b : List (String × SchemaNode)) :
    (v.withItemsProps a).withItemsProps b = v.withItemsProps b := by
  rcases v with ⟨t, d, p, i, e⟩
  rcases i with _ | ⟨t2, d2, p2, i2, e2⟩ <;> rfl

theorem directMatch_congr (q k : String) (v w : SchemaNode)
    (h : v.description = w.description) :
    directMatch q k v = directMatch q k w := by
  unfold directMatch
  rw [h]

/-- Characterisation of a node's children: the object branch. -/
theorem childrenOf_obj (v : SchemaNode) (cp : List (String × SchemaNode))
    (ht : v.type = some "object") (hp : v.properties = some cp) :
    childrenOf v = cp := by
  unfold childrenOf
  rw [if_pos ⟨ht, by simp [hp]⟩, hp]
  rfl

/-- Characterisation of a node's children: the array branch. -/
theorem childrenOf_arr (v : SchemaNode) (it : SchemaNode)
    (ht : v.type = some "array") (hi : v.items = some it) :
    childrenOf v = it.properties.getD [] := by
  unfold childrenOf
  rw [if_neg (by rintro ⟨h, -⟩; rw [ht] at h; simp at h),
    if_pos ⟨ht, by simp [hi]⟩, hi]
  rfl

/-- Characterisation of a node's children: no container branch applies. -/
theorem childrenOf_none (v : SchemaNode)
    (h1 : ¬(v.type = some "object" ∧ v.properties.isSome = true))
    (h2 : ¬(v.type = some "array" ∧ v.items.isSome = true)) :
    childrenOf v = [] := by
  unfold childrenOf
  rw [if_neg h1, if_neg h2]

theorem filterProperties_getD (q : String) (p : Option (List (String × SchemaNode)))
    (d m : Nat) : filterProperties q p d m = filterEntries q (p.getD []) d m := by
  cases p with
  | none => simp [filterProperties, filterEntries]
  | some l => simp [filterProperties]

/-- `entryStep` in the object branch. -/
theorem entryStep_obj (q key : String) (v : SchemaNode)
    (cp : List (String × SchemaNode)) (d m1 : Nat) (b : Bool)
    (ht : v.type = some "object") (hp : v.properties = some cp) :
    entryStep q key v d m1 b =
      (if 0 < (filterEntries q cp (d + 1) m1).1.length
        then (some (key, v.withProps (filterEntries q cp (d + 1) m1).1), true,
          (filterEntries q cp (d + 1) m1).2)
        else (none, b, (filterEntries q cp (d + 1) m1).2)) := by
  unfold entryStep
  rw [if_pos ⟨ht, by simp [hp]⟩, hp]
  simp only [filterProperties]

/-- `entryStep` in the array branch. -/
theorem entryStep_arr (q key : String) (v : SchemaNode) (it : SchemaNode)
    (d m1 : Nat) (b : Bool)
    (ht : v.type = some "array") (hi : v.items = some it) :
    entryStep q key v d m1 b =
      (if 0 < (filterEntries q (it.properties.getD []) (d + 1) m1).1.length
        then (some (key, v.withItemsProps
            (filterEntries q (it.properties.getD []) (d + 1) m1).1), true,
          (filterEntries q (it.properties.getD []) (d + 1) m1).2)
        else (none, b, (filterEntries q (it.properties.getD []) (d + 1) m1).2)) := by
  unfold entryStep
  rw [if_neg (by rintro ⟨h, -⟩; rw [ht] at h; simp at h),
    if_pos ⟨ht, by simp [hi]⟩, hi]
  simp only [Option.some_bind, filterProperties_getD]

/-- `entryStep` when no container branch applies. -/
theorem entryStep_none (q key : String) (v : SchemaNode) (d m1 : Nat) (b : Bool)
    (h1 : ¬(v.type = some "object" ∧ v.properties.isSome = true))
    (h2 : ¬(v.type = some "array" ∧ v.items.isSome = true)) :
    entryStep q key v d m1 b = (none, b, m1) := by
  unfold entryStep
  rw [if_neg h1, if_neg h2]

theorem entryStep_max (q key : String) (v : SchemaNode) (d m1 : Nat) (b : Bool) :
    (entryStep q key v d m1 b).2.2 =
      (filterEntries q (childrenOf v) (d + 1) m1).2 := by
  by_cases h1 : v.type = some "object" ∧ v.properties.isSome = true
  · obtain ⟨ht, hp'⟩ := h1
    obtain ⟨cp, hp⟩ := Option.isSome_iff_exists.mp hp'
    rw [entryStep_obj q key v cp d m1 b ht hp, childrenOf_obj v cp ht hp]
    split_ifs <;> rfl
  · by_cases h2 : v.type = some "array" ∧ v.items.isSome = true
    · obtain ⟨ht, hi'⟩ := h2
      obtain ⟨it, hi⟩ := Option.isSome_iff_exists.mp hi'
      rw [entryStep_arr q key v it d m1 b ht hi, childrenOf_arr v it ht hi]
      split_ifs <;> rfl
    · rw [entryStep_none q key v d m1 b h1 h2, childrenOf_none v h1 h2]
      simp [filterEntries]

theorem entryStep_isSome_iff (q key : String) (v : SchemaNode) (d m1 : Nat) (b : Bool) :
    (entryStep q key v d m1 b).1.isSome = true ↔
      (filterEntries q (childrenOf v) (d + 1) m1).1 ≠ [] := by
  by_cases h1 : v.type = some "object" ∧ v.properties.isSome = true
  · obtain ⟨ht, hp'⟩ := h1
    obtain ⟨cp, hp⟩ := Option.isSome_iff_exists.mp hp'
    rw [entryStep_obj q key v cp d m1 b ht hp, childrenOf_obj v cp ht hp]
    split_ifs with hl
    · simpa using List.length_pos.mp hl
    · simp only [Option.isSome_none, Bool.false_eq_true, false_iff, ne_eq, not_not]
      exact List.length_eq_zero.mp (by omega)
  · by_cases h2 : v.type = some "array" ∧ v.items.isSome = true
    · obtain ⟨ht, hi'⟩ := h2
      obtain ⟨it, hi⟩ := Option.isSome_iff_exists.mp hi'
      rw [entryStep_arr q key v it d m1 b ht hi, childrenOf_arr v it ht hi]
      split_ifs with hl
      · simpa using List.length_pos.mp hl
      · simp only [Option.isSome_none, Bool.false_eq_true, false_iff, ne_eq, not_not]
        exact List.length_eq_zero.mp (by omega)
    · rw [entryStep_none q key v d m1 b h1 h2, childrenOf_none v h1 h2]
      simp [filterEntries]

theorem entryStep_include (q key : String) (v : SchemaNode) (d m1 : Nat) (b : Bool) :
    (entryStep q key v d m1 b).2.1 =
      (b || (entryStep q key v d m1 b).1.isSome) := by
  by_cases h1 : v.type = some "object" ∧ v.properties.isSome = true
  · obtain ⟨ht, hp'⟩ := h1
    obtain ⟨cp, hp⟩ := Option.isSome_iff_exists.mp hp'
    rw [entryStep_obj q key v cp d m1 b ht hp]
    split_ifs <;> simp
  · by_cases h2 : v.type = some "array" ∧ v.items.isSome = true
    · obtain ⟨ht, hi'⟩ := h2
      obtain ⟨it, hi⟩ := Option.isSome_iff_exists.mp hi'
      rw [entryStep_arr q key v it d m1 b ht hi]
      split_ifs <;> simp
    · rw [entryStep_none q key v d m1 b h1 h2]
      simp

theorem entryStep_some (q key : String) (v : SchemaNode) (d m1 : Nat) (b : Bool)
    (e : String × SchemaNode) (h : (entryStep q key v d m1 b).1 = some e) :
    e.1 = key ∧ e.2.description = v.description ∧ e.2.type = v.type ∧
    e.2.extra = v.extra ∧
    childrenOf e.2 = (filterEntries q (childrenOf v) (d + 1) m1).1 ∧
    (filterEntries q (childrenOf v) (d + 1) m1).1 ≠ [] := by
  by_cases h1 : v.type = some "object" ∧ v.properties.isSome = true
  · obtain ⟨ht, hp'⟩ := h1
    obtain ⟨cp, hp⟩ := Option.isSome_iff_exists.mp hp'
    rw [entryStep_obj q key v cp d m1 b ht hp] at h
    rw [childrenOf_obj v cp ht hp]
    split_ifs at h with hl
    · obtain rfl : e = (key, v.withProps (filterEntries q cp (d + 1) m1).1) := by
        simpa using h.symm
      refine ⟨rfl, by simp, by simp, by simp, ?_, ?_⟩
      · exact childrenOf_obj _ _ (by simp [ht]) (by simp)
      · intro hnil
        rw [hnil] at hl
        simp at hl
  · by_cases h2 : v.type = some "array" ∧ v.items.isSome = true
    · obtain ⟨ht, hi'⟩ := h2
      obtain ⟨it, hi⟩ := Option.isSome_iff_exists.mp hi'
      rw [entryStep_arr q key v it d m1 b ht hi] at h
      rw [childrenOf_arr v it ht hi]
      split_ifs at h with hl
      · obtain rfl : e = (key,
            v.withItemsProps (filterEntries q (it.properties.getD []) (d + 1) m1).1) := by
          simpa using h.symm
        refine ⟨rfl, by simp, by simp, by simp, ?_, ?_⟩
        · rw [childrenOf_arr _ (itemsWithProps v.items
              (filterEntries q (it.properties.getD []) (d + 1) m1).1)
              (by simp [ht]) (by simp)]
          simp
        · intro hnil
          rw [hnil] at hl
          simp at hl
    · rw [entryStep_none q key v d m1 b h1 h2] at h
      simp at h

theorem filterEntries_nil (q : String) (d m : Nat) :
    filterEntries q [] d m = ([], m) := by
  simp [filterEntries]

theorem filterEntries_cons (q key : String) (value : SchemaNode)
    (rest : List (String × SchemaNode)) (d m : Nat) :
    filterEntries q ((key, value) :: rest) d m =
      (placedEntry key value (entryStep q key value d
          (if directMatch q key value ∧ m < d then d else m)
          (directMatch q key value)) ++
        (filterEntries q rest d (entryStep q key value d
          (if directMatch q key value ∧ m < d then d else m)
          (directMatch q key value)).2.2).1,
       (filterEntries q rest d (entryStep q key value d
          (if directMatch q key value ∧ m < d then d else m)
          (directMatch q key value)).2.2).2) := by
  simp only [filterEntries]

theorem placedEntry_mem (key : String) (value : SchemaNode)
    (st : Option (String × SchemaNode) × Bool × Nat) (k : String)
    (hkey : ∀ e, st.1 = some e → e.1 = key) :
    (k ∈ (placedEntry key value st).map Prod.fst) ↔
      (k = key ∧ (st.1.isSome = true ∨ st.2.1 = true)) := by
  unfold placedEntry
  cases hst : st.1 with
  | some e =>
    have := hkey e hst
    simp [← this]
  | none =>
    cases hb : st.2.1 <;> simp [hb]

theorem placedEntry_sub (key : String) (value : SchemaNode)
    (st : Option (String × SchemaNode) × Bool × Nat)
    (hkey : ∀ e, st.1 = some e → e.1 = key) :
    placedEntry key value st = [] ∨ ∃ w, placedEntry key value st = [(key, w)] := by
  unfold placedEntry
  cases hst : st.1 with
  | some e =>
    right
    refine ⟨e.2, ?_⟩
    have := hkey e hst
    rw [← this]
  | none =>
    cases hb : st.2.1
    · left; simp
    · right; exact ⟨value, by simp⟩

theorem filterEntries_append (q : String) (a b : List (String × SchemaNode))
    (d m : Nat) :
    (filterEntries q (a ++ b) d m).1 =
      (filterEntries q a d m).1 ++ (filterEntries q b d m).1 := by
  induction a generalizing m with
  | nil => simp [filterEntries_nil]
  | cons hd tl ih =>
    obtain ⟨key, value⟩ := hd
    rw [List.cons_append, filterEntries_cons, filterEntries_cons]
    simp only
    rw [ih]
    rw [List.append_assoc]
    congr 2
    exact filterEntries_fst q b d _ d m

theorem filterEntries_keys_sublist (q : String) (l : List (String × SchemaNode))
    (d m : Nat) :
    ((filterEntries q l d m).1.map Prod.fst).Sublist (l.map Prod.fst) := by
  induction l generalizing m with
  | nil => simp [filterEntries_nil]
  | cons hd tl ih =>
    obtain ⟨key, value⟩ := hd
    rw [filterEntries_cons]
    simp only [List.map_cons, List.map_append]
    rcases placedEntry_sub key value _
        (fun e he => (entryStep_some q key value d _ _ e he).1) with hp | ⟨w, hp⟩
    · rw [hp]
      simp only [List.map_nil, List.nil_append]
      exact (ih _).cons key
    · rw [hp]
      simp only [List.map_cons, List.map_nil, List.singleton_append]
      exact (ih _).cons₂ key

theorem deepMatchList_iff (q : String) (l : List (String × SchemaNode)) :
    deepMatchList q l = true ↔
      ∃ k v, (k, v) ∈ l ∧ deepMatchNode q k v = true := by
  induction l with
  | nil => simp [deepMatchList]
  | cons hd tl ih =>
    obtain ⟨key, value⟩ := hd
    rw [show deepMatchList q ((key, value) :: tl) =
        ((directMatch q key value || deepMatchList q (childrenOf value)) ||
          deepMatchList q tl) from by simp [deepMatchList]]
    simp only [Bool.or_eq_true, ih, List.mem_cons, Prod.mk.injEq]
    constructor
    · rintro (h | ⟨k, v, hm, hdm⟩)
      · exact ⟨key, value, Or.inl ⟨rfl, rfl⟩, by simp [deepMatchNode, h]⟩
      · exact ⟨k, v, Or.inr hm, hdm⟩
    · rintro ⟨k, v, ⟨rfl, rfl⟩ | hm, hdm⟩
      · exact Or.inl (by simpa [deepMatchNode] using hdm)
      · exact Or.inr ⟨k, v, hm, hdm⟩

/-- A key appears in the filtered output iff some entry of the input under
that key matches directly or via a descendant. -/
theorem filterEntries_mem (q : String) (l : List (String × SchemaNode))
    (d m : Nat) (k : String) :
    (k ∈ ((filterEntries q l d m).1.map Prod.fst)) ↔
      ∃ v, (k, v) ∈ l ∧ deepMatchNode q k v = true := by
  cases l with
  | nil => simp [filterEntries_nil]
  | cons hd rest =>
    obtain ⟨key, value⟩ := hd
    rw [filterEntries_cons]
    simp only [List.map_append, List.mem_append]
    have hchild : ((filterEntries q (childrenOf value) (d + 1)
        (if directMatch q key value ∧ m < d then d else m)).1 ≠ []) ↔
        deepMatchList q (childrenOf value) = true := by
      rw [deepMatchList_iff]
      constructor
      · intro hne
        obtain ⟨kv, hkv⟩ := List.exists_mem_of_ne_nil _ hne
        have hmm : kv.1 ∈ (filterEntries q (childrenOf value) (d + 1)
            (if directMatch q key value ∧ m < d then d else m)).1.map Prod.fst :=
          List.mem_map_of_mem Prod.fst hkv
        obtain ⟨v', hv'⟩ := (filterEntries_mem q (childrenOf value) (d + 1) _ kv.1).mp hmm
        exact ⟨kv.1, v', hv'⟩
      · rintro ⟨k', v', hm', hdm⟩
        have hmm := (filterEntries_mem q (childrenOf value) (d + 1)
          (if directMatch q key value ∧ m < d then d else m) k').mpr ⟨v', hm', hdm⟩
        intro hnil
        rw [hnil] at hmm
        simp at hmm
    have hplaced : (k ∈ (placedEntry key value (entryStep q key value d
        (if directMatch q key value ∧ m < d then d else m)
        (directMatch q key value))).map Prod.fst) ↔
        (k = key ∧ deepMatchNode q key value = true) := by
      rw [placedEntry_mem key value _ k
        (fun e he => (entryStep_some q key value d _ _ e he).1)]
      constructor
      · rintro ⟨rfl, h⟩
        refine ⟨rfl, ?_⟩
        rcases h with h | h
        · rw [entryStep_isSome_iff] at h
          simp [deepMatchNode, hchild.mp h]
        · rw [entryStep_include] at h
          simp only [Bool.or_eq_true] at h
          rcases h with h | h
          · simp [deepMatchNode, h]
          · rw [entryStep_isSome_iff] at h
            simp [deepMatchNode, hchild.mp h]
      · rintro ⟨rfl, h⟩
        refine ⟨rfl, ?_⟩
        simp only [deepMatchNode, Bool.or_eq_true] at h
        rcases h with h | h
        · right
          rw [entryStep_include]
          simp [h]
        · left
          rw [entryStep_isSome_iff]
          exact hchild.mpr h
    have htail := filterEntries_mem q rest d (entryStep q key value d
      (if directMatch q key value ∧ m < d then d else m)
      (directMatch q key value)).2.2 k
    constructor
    · rintro (hp | ht)
      · obtain ⟨rfl, hdm⟩ := hplaced.mp hp
        exact ⟨value, List.mem_cons_self _ _, hdm⟩
      · obtain ⟨v, hm', hdm⟩ := htail.mp ht
        exact ⟨v, List.mem_cons_of_mem _ hm', hdm⟩
    · rintro ⟨v, hm', hdm⟩
      rcases List.mem_cons.mp hm' with heq | hm''
      · cases heq
        exact Or.inl (hplaced.mpr ⟨rfl, hdm⟩)
      · exact Or.inr (htail.mpr ⟨v, hm'', hdm⟩)
termination_by nsizeEntries l
decreasing_by
  · have := childrenOfBound snd
    simp only [nsizeEntries]
    omega
  · have := childrenOfBound snd
    simp only [nsizeEntries]
    omega
  · simp only [nsizeEntries]
    omega

theorem maxDepth1_eq (dm : Bool) (d m : Nat) :
    (if dm = true ∧ m < d then d else m) = max m (if dm = true then d else 0) := by
  cases dm <;> split_ifs <;> simp_all <;> omega

/-- The returned `maxDepth` is the running maximum of the incoming value
and the greatest depth of a direct match in the processed map. -/
theorem filterEntries_max (q : String) (l : List (String × SchemaNode))
    (d m : Nat) :
    (filterEntries q l d m).2 = max m (dirMaxList q l d) := by
  cases l with
  | nil => simp [filterEntries_nil, dirMaxList]
  | cons hd rest =>
    obtain ⟨key, value⟩ := hd
    rw [filterEntries_cons]
    simp only
    rw [filterEntries_max q rest d _, entryStep_max,
      filterEntries_max q (childrenOf value) (d + 1) _, maxDepth1_eq,
      show dirMaxList q ((key, value) :: rest) d =
        max (max (if directMatch q key value = true then d else 0)
          (dirMaxList q (childrenOf value) (d + 1))) (dirMaxList q rest d) from by
        simp [dirMaxList]]
    generalize (if directMatch q key value = true then d else 0) = x
    omega
termination_by nsizeEntries l
decreasing_by
  · simp only [nsizeEntries]
    omega
  · have := childrenOfBound snd
    simp only [nsizeEntries]
    omega

theorem placedEntry_some (key : String) (value : SchemaNode)
    (e : String × SchemaNode) (b : Bool) (n : Nat) :
    placedEntry key value (some e, b, n) = [e] := rfl

theorem placedEntry_none (key : String) (value : SchemaNode) (b : Bool) (n : Nat) :
    placedEntry key value (none, b, n) = if b = true then [(key, value)] else [] := rfl

mutual

/-- Re-filtering an already-filtered map with the same query changes
nothing. -/
theorem filterEntries_idem (q : String) (l : List (String × SchemaNode))
    (d m d' m' : Nat) :
    (filterEntries q ((filterEntries q l d m).1) d' m').1 =
      (filterEntries q l d m).1 := by
  cases l with
  | nil => simp [filterEntries_nil]
  | cons hd rest =>
    obtain ⟨key, value⟩ := hd
    rw [filterEntries_cons q key value rest d m]
    simp only
    rw [filterEntries_append]
    rw [placedEntry_refilter q key value d _ d' m']
    rw [filterEntries_idem q rest d _ d' m']
termination_by nsizeEntries l
decreasing_by
  · simp only [nsizeEntries]
    omega
  · simp only [nsizeEntries]
    omega

/-- Re-filtering the single entry placed for one key reproduces it. -/
theorem placedEntry_refilter (q key : String) (value : SchemaNode)
    (d m1 d' m' : Nat) :
    (filterEntries q (placedEntry key value
        (entryStep q key value d m1 (directMatch q key value))) d' m').1 =
      placedEntry key value
        (entryStep q key value d m1 (directMatch q key value)) := by
  by_cases h1 : value.type = some "object" ∧ value.properties.isSome = true
  · obtain ⟨ht, hp'⟩ := h1
    obtain ⟨cp, hp⟩ := Option.isSome_iff_exists.mp hp'
    rw [entryStep_obj q key value cp d m1 _ ht hp]
    split_ifs with hl
    · rw [placedEntry_some]
      rw [filterEntries_cons]
      simp only
      rw [entryStep_obj q key (value.withProps (filterEntries q cp (d + 1) m1).1)
        ((filterEntries q cp (d + 1) m1).1) d' _ _ (by simp [ht]) (by simp)]
      rw [filterEntries_idem q cp (d + 1) m1 (d' + 1) _]
      rw [if_pos hl, placedEntry_some, filterEntries_nil]
      simp
    · rw [placedEntry_none]
      cases hdm : directMatch q key value
      · simp [filterEntries_nil]
      · simp only [if_true]
        rw [filterEntries_cons]
        simp only
        rw [entryStep_obj q key value cp d' _ _ ht hp]
        have hfc : (filterEntries q cp (d' + 1)
            (if directMatch q key value ∧ m' < d' then d' else m')).1 = [] := by
          rw [filterEntries_fst q cp (d' + 1) _ (d + 1) m1]
          exact List.length_eq_zero.mp (by omega)
        rw [if_neg (by rw [hfc]; simp), placedEntry_none, hdm, filterEntries_nil]
        simp
  · by_cases h2 : value.type = some "array" ∧ value.items.isSome = true
    · obtain ⟨ht, hi'⟩ := h2
      obtain ⟨it, hi⟩ := Option.isSome_iff_exists.mp hi'
      rw [entryStep_arr q key value it d m1 _ ht hi]
      split_ifs with hl
      · rw [placedEntry_some]
        rw [filterEntries_cons]
        simp only
        rw [entryStep_arr q key
          (value.withItemsProps (filterEntries q (it.properties.getD []) (d + 1) m1).1)
          (itemsWithProps value.items
            (filterEntries q (it.properties.getD []) (d + 1) m1).1)
          d' _ _ (by simp [ht]) (by simp)]
        rw [show (itemsWithProps value.items
            (filterEntries q (it.properties.getD []) (d + 1) m1).1).properties.getD [] =
            (filterEntries q (it.properties.getD []) (d + 1) m1).1 from by simp]
        rw [filterEntries_idem q (it.properties.getD []) (d + 1) m1 (d' + 1) _]
        rw [if_pos hl, placedEntry_some, filterEntries_nil]
        simp
      · rw [placedEntry_none]
        cases hdm : directMatch q key value
        · simp [filterEntries_nil]
        · simp only [if_true]
          rw [filterEntries_cons]
          simp only
          rw [entryStep_arr q key value it d' _ _ ht hi]
          have hfc : (filterEntries q (it.properties.getD []) (d' + 1)
              (if directMatch q key value ∧ m' < d' then d' else m')).1 = [] := by
            rw [filterEntries_fst q (it.properties.getD []) (d' + 1) _ (d + 1) m1]
            exact List.length_eq_zero.mp (by omega)
          rw [if_neg (by rw [hfc]; simp), placedEntry_none, hdm, filterEntries_nil]
          simp
    · rw [entryStep_none q key value d m1 _ h1 h2, placedEntry_none]
      cases hdm : directMatch q key value
      · simp [filterEntries_nil]
      · simp only [if_true]
        rw [filterEntries_cons]
        simp only
        rw [entryStep_none q key value d' _ _ h1 h2, placedEntry_none, hdm,
          filterEntries_nil]
        simp
termination_by SchemaNode.nsize value
decreasing_by
  · have hb := childrenOfBound value
    rw [childrenOf_obj value cp ht hp] at hb
    exact hb
  · have hb := childrenOfBound value
    rw [childrenOf_arr value it ht hi] at hb
    exact hb

end

mutual

/-- With enough fuel the fuel-indexed mirror computes the filter. -/
theorem filterPropertiesF_eq (q : String) (fuel : Nat)
    (p : Option (List (String × SchemaNode))) (d m : Nat) :
    nsizeProps p < fuel →
    filterPropertiesF q fuel p d m = some (filterProperties q p d m) := by
  cases fuel with
  | zero => intro h; omega
  | succ fuel =>
    intro h
    cases p with
    | none => simp [filterPropertiesF, filterProperties]
    | some l =>
      simp only [filterPropertiesF, filterProperties]
      exact filterEntriesF_eq q fuel l d m (by simp [nsizeProps] at h; omega)
termination_by (fuel, 0, 0)
decreasing_by
  try simp_wf
  apply Prod.Lex.left
  omega

theorem filterEntriesF_eq (q : String) (fuel : Nat)
    (l : List (String × SchemaNode)) (d m : Nat) :
    nsizeEntries l < fuel →
    filterEntriesF q fuel l d m = some (filterEntries q l d m) := by
  cases l with
  | nil => intro h; simp [filterEntriesF, filterEntries_nil]
  | cons hd rest =>
    obtain ⟨key, value⟩ := hd
    intro h
    have h1 : SchemaNode.nsize value < fuel := by
      simp only [nsizeEntries] at h
      omega
    have h2 : nsizeEntries rest < fuel := by
      simp only [nsizeEntries] at h
      omega
    simp only [filterEntriesF]
    rw [entryStepF_eq q fuel key value d _ _ h1]
    simp only
    rw [filterEntriesF_eq q fuel rest d _ h2]
    simp only
    rw [filterEntries_cons]
termination_by (fuel, 2, nsizeEntries l)
decreasing_by
  · try simp_wf
    apply Prod.Lex.right
    apply Prod.Lex.left
    omega
  · try simp_wf
    apply Prod.Lex.right
    apply Prod.Lex.right
    simp only [nsizeEntries]
    omega

theorem entryStepF_eq (q : String) (fuel : Nat) (key : String)
    (value : SchemaNode) (d m1 : Nat) (b : Bool)
    (h : SchemaNode.nsize value < fuel) :
    entryStepF q fuel key value d m1 b = some (entryStep q key value d m1 b) := by
  have hp : nsizeProps value.properties < fuel := by
    rcases value with ⟨t, dsc, p, i, e⟩
    simp only [SchemaNode.nsize, SchemaNode.properties] at h ⊢
    omega
  have hi : nsizeProps (value.items.bind SchemaNode.properties) < fuel := by
    rcases value with ⟨t, dsc, p, i, e⟩
    simp only [SchemaNode.nsize, SchemaNode.items] at h ⊢
    rcases i with _ | ⟨t2, d2, p2, i2, e2⟩
    · simp only [Option.bind, nsizeProps]
      omega
    · simp only [Option.bind, SchemaNode.properties, nsizeItems, SchemaNode.nsize] at h ⊢
      omega
  unfold entryStepF entryStep
  split_ifs with hc1 hc2
  · rw [filterPropertiesF_eq q fuel value.properties (d + 1) m1 hp]
    simp only
    split_ifs <;> rfl
  · rw [filterPropertiesF_eq q fuel (value.items.bind SchemaNode.properties) (d + 1) m1 hi]
    simp only
    split_ifs <;> rfl
  · rfl
termination_by (fuel, 1, 0)
decreasing_by
  · try simp_wf
    apply Prod.Lex.right
    apply Prod.Lex.left
    omega
  · try simp_wf
    apply Prod.Lex.right
    apply Prod.Lex.left
    omega

end

/-- The nested chain of depth `fuel` exhausts `fuel` units: recursion depth
grows without bound across inputs. -/
theorem chainSchema_exhausts (q : String) :
    ∀ fuel d m, filterPropertiesF q fuel (some [("k", chainSchema fuel)]) d m = none := by
  intro fuel
  induction fuel with
  | zero => intro d m; simp [filterPropertiesF]
  | succ n ih =>
    intro d m
    simp only [filterPropertiesF, filterEntriesF, chainSchema]
    rw [show entryStepF q n "k"
        (.mk (some "object") none (some [("k", chainSchema n)]) none [])
        d (if directMatch q "k" (.mk (some "object") none (some [("k", chainSchema n)]) none [])
            ∧ m < d then d else m)
        (directMatch q "k" (.mk (some "object") none (some [("k", chainSchema n)]) none []))
        = none from by
      unfold entryStepF
      rw [if_pos ⟨rfl, rfl⟩]
      rw [show (SchemaNode.mk (some "object") none (some [("k", chainSchema n)]) none
        []).properties = some [("k", chainSchema n)] from rfl]
      rw [ih (d + 1) _]]

/-- A key not present in the first part of a concatenation is looked up in
the second. -/
theorem lookup_append_of_not_mem (k : String) (a b : List (String × SchemaNode))
    (h : ∀ e ∈ a, e.1 ≠ k) :
    List.lookup k (a ++ b) = List.lookup k b := by
  induction a with
  | nil => simp
  | cons hd tl ih =>
    obtain ⟨k', v'⟩ := hd
    rw [List.cons_append, List.lookup_cons]
    have hne : (k == k') = false := by
      have := h (k', v') (List.mem_cons_self _ _)
      simp only [ne_eq] at this
      simpa using fun hc => this hc.symm
    rw [hne]
    simp only [Bool.false_eq_true]
    exact ih fun e he => h e (List.mem_cons_of_mem _ he)

/-- The entry placed for an object-typed container with matching
descendants is the original node with `properties` replaced by the
filtered children. -/
theorem filterEntries_lookup_obj (q : String) (l : List (String × SchemaNode))
    (d m : Nat) (key : String) (value : SchemaNode)
    (cp : List (String × SchemaNode))
    (hnd : (l.map Prod.fst).Nodup) (hmem : (key, value) ∈ l)
    (ht : value.type = some "object") (hp : value.properties = some cp)
    (hne : (filterEntries q cp 0 0).1 ≠ []) :
    List.lookup key (filterEntries q l d m).1 =
      some (value.withProps ((filterEntries q cp 0 0).1)) := by
  induction l generalizing m with
  | nil => simp at hmem
  | cons hd rest ih =>
    obtain ⟨k', v'⟩ := hd
    rcases List.mem_cons.mp hmem with heq | hmem'
    · injection heq with h1 h2
      subst h1
      subst h2
      rw [filterEntries_cons]
      simp only
      rw [entryStep_obj q key value cp d _ _ ht hp]
      have hfst : (filterEntries q cp (d + 1)
          (if directMatch q key value ∧ m < d then d else m)).1 =
          (filterEntries q cp 0 0).1 :=
        filterEntries_fst q cp (d + 1) _ 0 0
      rw [if_pos (by rw [hfst]; cases hh : (filterEntries q cp 0 0).1 <;> simp_all)]
      rw [placedEntry_some]
      rw [List.cons_append, List.lookup_cons]
      simp only [beq_self_eq_true]
      rw [hfst]
    · have hk : k' ≠ key := by
        intro hcontra
        subst hcontra
        have : k' ∈ rest.map Prod.fst := List.mem_map_of_mem Prod.fst hmem'
        simp only [List.map_cons, List.nodup_cons] at hnd
        exact hnd.1 this
      rw [filterEntries_cons]
      simp only
      rw [lookup_append_of_not_mem key _ _ (by
        intro e he
        rcases placedEntry_sub k' v' _
            (fun e' he' => (entryStep_some q k' v' d _ _ e' he').1) with hpl | ⟨w, hpl⟩
        · rw [hpl] at he; simp at he
        · rw [hpl] at he
          simp only [List.mem_singleton] at he
          subst he
          exact hk)]
      have hnd' : (rest.map Prod.fst).Nodup := by
        simp only [List.map_cons, List.nodup_cons] at hnd
        exact hnd.2
      exact ih _ hnd' hmem'

/-- The entry placed for an array-typed container with matching
descendants is the original node with `items.properties` replaced by the
filtered children. -/
theorem filterEntries_lookup_arr (q : String) (l : List (String × SchemaNode))
    (d m : Nat) (key : String) (value it : SchemaNode)
    (cp : List (String × SchemaNode))
    (hnd : (l.map Prod.fst).Nodup) (hmem : (key, value) ∈ l)
    (ht : value.type = some "array") (hi : value.items = some it)
    (hp : it.properties = some cp)
    (hne : (filterEntries q cp 0 0).1 ≠ []) :
    List.lookup key (filterEntries q l d m).1 =
      some (value.withItemsProps ((filterEntries q cp 0 0).1)) := by
  induction l generalizing m with
  | nil => simp at hmem
  | cons hd rest ih =>
    obtain ⟨k', v'⟩ := hd
    rcases List.mem_cons.mp hmem with heq | hmem'
    · injection heq with h1 h2
      subst h1
      subst h2
      rw [filterEntries_cons]
      simp only
      rw [entryStep_arr q key value it d _ _ ht hi]
      have hgd : it.properties.getD [] = cp := by rw [hp]; rfl
      rw [hgd]
      have hfst : (filterEntries q cp (d + 1)
          (if directMatch q key value ∧ m < d then d else m)).1 =
          (filterEntries q cp 0 0).1 :=
        filterEntries_fst q cp (d + 1) _ 0 0
      rw [if_pos (by rw [hfst]; cases hh : (filterEntries q cp 0 0).1 <;> simp_all)]
      rw [placedEntry_some]
      rw [List.cons_append, List.lookup_cons]
      simp only [beq_self_eq_true]
      rw [hfst]
    · have hk : k' ≠ key := by
        intro hcontra
        subst hcontra
        have : k' ∈ rest.map Prod.fst := List.mem_map_of_mem Prod.fst hmem'
        simp only [List.map_cons, List.nodup_cons] at hnd
        exact hnd.1 this
      rw [filterEntries_cons]
      simp only
      rw [lookup_append_of_not_mem key _ _ (by
        intro e he
        rcases placedEntry_sub k' v' _
            (fun e' he' => (entryStep_some q k' v' d _ _ e' he').1) with hpl | ⟨w, hpl⟩
        · rw [hpl] at he; simp at he
        · rw [hpl] at he
          simp only [List.mem_singleton] at he
          subst he
          exact hk)]
      have hnd' : (rest.map Prod.fst).Nodup := by
        simp only [List.map_cons, List.nodup_cons] at hnd
        exact hnd.2
      exact ih _ hnd' hmem'

theorem lookup_some_mem (k : String) (l : List (String × SchemaNode))
    (v : SchemaNode) (h : List.lookup k l = some v) : (k, v) ∈ l := by
  induction l with
  | nil => simp [List.lookup] at h
  | cons hd tl ih =>
    obtain ⟨k', v'⟩ := hd
    rw [List.lookup_cons] at h
    by_cases hk : (k == k') = true
    · simp only [hk, Option.some.injEq] at h
      subst h
      have : k = k' := by simpa using hk
      subst this
      exact List.mem_cons_self _ _
    · simp only [hk, Bool.false_eq_true] at h
      exact List.mem_cons_of_mem _ (ih h)

theorem lookup_some_key_mem (k : String) (l : List (String × SchemaNode))
    (v : SchemaNode) (h : List.lookup k l = some v) : k ∈ l.map Prod.fst :=
  List.mem_map_of_mem Prod.fst (lookup_some_mem k l v h)

theorem nodeAt_nil (props : List (String × SchemaNode)) : nodeAt props [] = none := rfl

theorem nodeAt_single (props : List (String × SchemaNode)) (k : String) :
    nodeAt props [k] = List.lookup k props := rfl

theorem nodeAt_cons2 (props : List (String × SchemaNode)) (k k2 : String)
    (rs : List String) :
    nodeAt props (k :: k2 :: rs) =
      match List.lookup k props with
      | some v => nodeAt (childrenOf v) (k2 :: rs)
      | none => none := rfl

theorem nodupDeep_head (l : List (String × SchemaNode))
    (h : nodupKeysDeep l = true) : (l.map Prod.fst).Nodup := by
  unfold nodupKeysDeep at h
  simp only [Bool.and_eq_true, decide_eq_true_eq] at h
  exact h.1

theorem childrenNodup_mem (l : List (String × SchemaNode)) (k : String)
    (v : SchemaNode) (hc : childrenNodup l = true) (hmem : (k, v) ∈ l) :
    nodupKeysDeep (childrenOf v) = true := by
  induction l with
  | nil => simp at hmem
  | cons hd tl ih =>
    obtain ⟨k', v'⟩ := hd
    rw [show childrenNodup ((k', v') :: tl) =
        ((decide (((childrenOf v').map Prod.fst).Nodup) &&
          childrenNodup (childrenOf v')) && childrenNodup tl) from by
      simp [childrenNodup]] at hc
    simp only [Bool.and_eq_true] at hc
    rcases List.mem_cons.mp hmem with heq | hmem'
    · injection heq with h1 h2
      subst h1
      subst h2
      unfold nodupKeysDeep
      simp only [Bool.and_eq_true]
      exact ⟨hc.1.1, hc.1.2⟩
    · exact ih hc.2 hmem'

theorem nodupDeep_children (l : List (String × SchemaNode)) (k : String)
    (v : SchemaNode) (h : nodupKeysDeep l = true) (hmem : (k, v) ∈ l) :
    nodupKeysDeep (childrenOf v) = true := by
  unfold nodupKeysDeep at h
  simp only [Bool.and_eq_true] at h
  exact childrenNodup_mem l k v h.2 hmem

/-- Every entry of the filtered output corresponds to the original entry
under the same key: either placed unchanged, or a container copy with the
same description whose children are the filtered children of the
original. -/
theorem filterEntries_lookup_shape (q : String) (l : List (String × SchemaNode))
    (d m : Nat) (k : String) (w : SchemaNode)
    (hnd : (l.map Prod.fst).Nodup)
    (h : List.lookup k (filterEntries q l d m).1 = some w) :
    ∃ v, List.lookup k l = some v ∧
      (w = v ∨ (w.description = v.description ∧
        childrenOf w = (filterEntries q (childrenOf v) 0 0).1)) := by
  induction l generalizing m with
  | nil =>
    rw [filterEntries_nil] at h
    simp [List.lookup] at h
  | cons hd rest ih =>
    obtain ⟨k', v'⟩ := hd
    simp only [List.map_cons, List.nodup_cons] at hnd
    rw [filterEntries_cons] at h
    simp only at h
    by_cases hk : k = k'
    · subst hk
      refine ⟨v', by rw [List.lookup_cons]; simp, ?_⟩
      have htail : ∀ w', List.lookup k
          ((filterEntries q rest d (entryStep q k v' d
            (if directMatch q k v' ∧ m < d then d else m)
            (directMatch q k v')).2.2).1) = some w' → False := by
        intro w' hw'
        have := lookup_some_key_mem _ _ _ hw'
        have hsub := filterEntries_keys_sublist q rest d
          ((entryStep q k v' d (if directMatch q k v' ∧ m < d then d else m)
            (directMatch q k v')).2.2)
        exact hnd.1 (hsub.mem this)
      cases hst : (entryStep q k v' d
          (if directMatch q k v' ∧ m < d then d else m)
          (directMatch q k v')).1 with
      | some e =>
        obtain ⟨he1, he2, he3, he4, he5, he6⟩ :=
          entryStep_some q k v' d _ _ e hst
        rw [show placedEntry k v' (entryStep q k v' d
            (if directMatch q k v' ∧ m < d then d else m)
            (directMatch q k v')) = [e] from by
          unfold placedEntry
          rw [hst]] at h
        rw [List.cons_append, List.lookup_cons] at h
        rw [show (k == e.1) = true from by simp [he1]] at h
        simp only [Option.some.injEq] at h
        subst h
        right
        refine ⟨he2, ?_⟩
        rw [he5]
        exact filterEntries_fst q (childrenOf v') (d + 1) _ 0 0
      | none =>
        rw [show placedEntry k v' (entryStep q k v' d
            (if directMatch q k v' ∧ m < d then d else m)
            (directMatch q k v')) =
            (if (entryStep q k v' d
              (if directMatch q k v' ∧ m < d then d else m)
              (directMatch q k v')).2.1 = true then [(k, v')] else []) from by
          unfold placedEntry
          rw [hst]] at h
        by_cases hinc : (entryStep q k v' d
            (if directMatch q k v' ∧ m < d then d else m)
            (directMatch q k v')).2.1 = true
        · rw [if_pos hinc] at h
          rw [List.cons_append, List.lookup_cons] at h
          simp only [beq_self_eq_true, Option.some.injEq] at h
          subst h
          exact Or.inl rfl
        · rw [if_neg hinc] at h
          simp only [List.nil_append] at h
          exact absurd h (fun hh => htail w hh)
    · rw [lookup_append_of_not_mem k _ _ (by
        intro e he
        rcases placedEntry_sub k' v' _
            (fun e' he' => (entryStep_some q k' v' d _ _ e' he').1) with hpl | ⟨w', hpl⟩
        · rw [hpl] at he; simp at he
        · rw [hpl] at he
          simp only [List.mem_singleton] at he
          subst he
          simp only [ne_eq]
          exact fun hc => hk hc.symm)] at h
      obtain ⟨v, hv, hrel⟩ := ih _ hnd.2 h
      refine ⟨v, ?_, hrel⟩
      rw [List.lookup_cons]
      rw [show (k == k') = false from by simpa using hk]
      simpa using hv

/-- Every node of the filtered tree sits at the same path as a node of the
original tree with the same description. -/
theorem nodeAt_filter (q : String) (p : List String) :
    ∀ l d m x, nodupKeysDeep l = true →
      nodeAt ((filterEntries q l d m).1) p = some x →
      ∃ y, nodeAt l p = some y ∧ y.description = x.description := by
  induction p with
  | nil =>
    intro l d m x _ h
    rw [nodeAt_nil] at h
    exact absurd h (by simp)
  | cons k rest ih =>
    intro l d m x hnd h
    cases rest with
    | nil =>
      rw [nodeAt_single] at h
      obtain ⟨v, hv, hrel⟩ :=
        filterEntries_lookup_shape q l d m k x (nodupDeep_head l hnd) h
      refine ⟨v, by rw [nodeAt_single]; exact hv, ?_⟩
      rcases hrel with rfl | ⟨hdesc, -⟩
      · rfl
      · exact hdesc.symm
    | cons k2 rs =>
      rw [nodeAt_cons2] at h
      cases hw : List.lookup k ((filterEntries q l d m).1) with
      | none => rw [hw] at h; simp at h
      | some w =>
        rw [hw] at h
        simp only at h
        obtain ⟨v, hv, hrel⟩ :=
          filterEntries_lookup_shape q l d m k w (nodupDeep_head l hnd) hw
        rcases hrel with rfl | ⟨hdesc, hch⟩
        · refine ⟨x, ?_, rfl⟩
          rw [nodeAt_cons2, hv]
          exact h
        · rw [hch] at h
          obtain ⟨y, hy, hydesc⟩ := ih (childrenOf v) 0 0 x
            (nodupDeep_children l k v hnd (lookup_some_mem k l v hv)) h
          refine ⟨y, ?_, hydesc⟩
          rw [nodeAt_cons2, hv]
          exact hy

/-- Ancestors of a retained node are retained: a non-empty prefix of a
resolvable path resolves as well. -/
theorem nodeAt_ancestors (p : List String) :
    ∀ (l : List (String × SchemaNode)) (p' : List String) (x : SchemaNode),
      nodeAt l p = some x → p' ≠ [] → p' <+: p →
      ∃ z, nodeAt l p' = some z := by
  induction p with
  | nil =>
    intro l p' x h _ _
    rw [nodeAt_nil] at h
    exact absurd h (by simp)
  | cons k rest ih =>
    intro l p' x h hne hpre
    cases p' with
    | nil => exact absurd rfl hne
    | cons k1 rest' =>
      obtain ⟨heq, hpre'⟩ := List.cons_prefix_cons.mp hpre
      rw [show (k1 :: rest' : List String) = k :: rest' from by rw [heq]]
      cases rest with
      | nil =>
        have : rest' = [] := List.prefix_nil.mp hpre'
        subst this
        exact ⟨x, h⟩
      | cons k2 rs =>
        rw [nodeAt_cons2] at h
        cases hw : List.lookup k l with
        | none => rw [hw] at h; simp at h
        | some v =>
          rw [hw] at h
          simp only at h
          cases rest' with
          | nil => exact ⟨v, by rw [nodeAt_single]; exact hw⟩
          | cons k3 rs' =>
            obtain ⟨z, hz⟩ := ih (childrenOf v) (k3 :: rs') x h (by simp) hpre'
            refine ⟨z, ?_⟩
            cases hrs' : rs' with
            | nil =>
              rw [nodeAt_cons2, hw]
              rw [← hrs']
              exact hz
            | cons a b =>
              rw [nodeAt_cons2, hw]
              rw [← hrs']
              exact hz

theorem dirMax_cons (q k : String) (v : SchemaNode)
    (rest : List (String × SchemaNode)) (d : Nat) :
    dirMaxList q ((k, v) :: rest) d =
      max (max (if directMatch q k v = true then d else 0)
        (dirMaxList q (childrenOf v) (d + 1))) (dirMaxList q rest d) := by
  simp [dirMaxList]

theorem dirMax_mem_bound (q : String) (l : List (String × SchemaNode))
    (k : String) (v : SchemaNode) (d : Nat) (hmem : (k, v) ∈ l) :
    (if directMatch q k v = true then d else 0) ≤ dirMaxList q l d ∧
    dirMaxList q (childrenOf v) (d + 1) ≤ dirMaxList q l d := by
  induction l with
  | nil => simp at hmem
  | cons hd rest ih =>
    obtain ⟨k', v'⟩ := hd
    rw [dirMax_cons]
    rcases List.mem_cons.mp hmem with heq | hmem'
    · injection heq with h1 h2
      subst h1
      subst h2
      constructor <;> omega
    · obtain ⟨ha, hb⟩ := ih hmem'
      constructor <;> omega

/-- A directly matching node at a path bounds the computed greatest
direct-match depth from below. -/
theorem nodeAt_dirMax (q : String) (p : List String) :
    ∀ (l : List (String × SchemaNode)) (d : Nat) (y : SchemaNode),
      nodeAt l p = some y → ∀ k, p.getLast? = some k →
      directMatch q k y = true → d + (p.length - 1) ≤ dirMaxList q l d := by
  induction p with
  | nil =>
    intro l d y h _ _ _
    rw [nodeAt_nil] at h
    exact absurd h (by simp)
  | cons k1 rest ih =>
    intro l d y h k hlast hdm
    cases rest with
    | nil =>
      rw [nodeAt_single] at h
      have hk : k = k1 := by
        simp only [List.getLast?_singleton, Option.some.injEq] at hlast
        exact hlast.symm
      rw [hk] at hdm
      have hmem := lookup_some_mem _ _ _ h
      have := (dirMax_mem_bound q l k1 y d hmem).1
      rw [hdm] at this
      simpa using this
    | cons k2 rs =>
      rw [nodeAt_cons2] at h
      cases hw : List.lookup k1 l with
      | none => rw [hw] at h; simp at h
      | some v =>
        rw [hw] at h
        simp only at h
        have hlast' : (k2 :: rs).getLast? = some k := by
          rw [List.getLast?_cons_cons] at hlast
          exact hlast
        have hih := ih (childrenOf v) (d + 1) y h k hlast' hdm
        have hb := (dirMax_mem_bound q l k1 v d (lookup_some_mem _ _ _ hw)).2
        simp only [List.length_cons] at hih ⊢
        omega

theorem lookupBenign (fs : List (String × JsValue)) (k : String) (w : JsValue)
    (hb : jsBenignF fs = true) (h : List.lookup k fs = some w) :
    jsBenign w = true := by
  induction fs with
  | nil => simp [List.lookup] at h
  | cons hd tl ih =>
    obtain ⟨k', v'⟩ := hd
    rw [show jsBenignF ((k', v') :: tl) = (jsBenign v' && jsBenignF tl) from by
      simp [jsBenignF]] at hb
    simp only [Bool.and_eq_true] at hb
    rw [List.lookup_cons] at h
    by_cases hk : (k == k') = true
    · simp only [hk, Option.some.injEq] at h
      subst h
      exact hb.1
    · simp only [hk, Bool.false_eq_true] at h
      exact ih hb.2 h

theorem jsFieldOk (v : JsValue) (k : String) (hb : jsBenign v = true) :
    ∃ o, jsField v k = .ok o ∧ jsBenignOpt o = true := by
  cases v with
  | null => simp [jsBenign] at hb
  | obj fs =>
    refine ⟨List.lookup k fs, rfl, ?_⟩
    rw [show jsBenign (.obj fs) =
        (benignDesc (List.lookup "description" fs) && jsBenignF fs) from by
      simp [jsBenign]] at hb
    simp only [Bool.and_eq_true] at hb
    cases hlk : List.lookup k fs with
    | none => rfl
    | some w => exact lookupBenign fs k w hb.2 hlk
  | bool b => exact ⟨none, rfl, rfl⟩
  | num n => exact ⟨none, rfl, rfl⟩
  | str s => exact ⟨none, rfl, rfl⟩
  | arr es => exact ⟨none, rfl, rfl⟩

theorem jsDescrMatch_ok (o : Option JsValue) (q : String)
    (hb : benignDesc o = true) : ∃ b, jsDescrMatch o q = .ok b := by
  rcases o with _ | v
  · exact ⟨false, rfl⟩
  · cases v with
    | null => exact ⟨false, rfl⟩
    | bool b =>
      cases b
      · exact ⟨false, rfl⟩
      · simp [benignDesc] at hb
    | num n =>
      have : n = 0 := by simpa [benignDesc] using hb
      subst this
      exact ⟨false, by simp [jsDescrMatch]⟩
    | str s => exact ⟨_, rfl⟩
    | arr es => exact ⟨_, rfl⟩
    | obj fs => simp [benignDesc] at hb

theorem benignDesc_of_obj (fs : List (String × JsValue))
    (hb : jsBenign (.obj fs) = true) :
    benignDesc (List.lookup "description" fs) = true ∧ jsBenignF fs = true := by
  rw [show jsBenign (.obj fs) =
      (benignDesc (List.lookup "description" fs) && jsBenignF fs) from by
    simp [jsBenign]] at hb
  simpa using hb

theorem jsIncludeCheck_ok (q key : String) (value : JsValue)
    (hb : jsBenign value = true) :
    ∃ b, jsIncludeCheck q key value = .ok b := by
  unfold jsIncludeCheck
  split_ifs with hinc
  · exact ⟨true, rfl⟩
  · cases value with
    | null => simp [jsBenign] at hb
    | obj fs =>
      rw [show jsField (.obj fs) "description" =
          .ok (List.lookup "description" fs) from rfl]
      simp only
      exact jsDescrMatch_ok _ q (benignDesc_of_obj fs hb).1
    | bool b => exact ⟨false, rfl⟩
    | num n => exact ⟨false, rfl⟩
    | str s => exact ⟨false, rfl⟩
    | arr es => exact ⟨false, rfl⟩

theorem jsBenignF_enum (n : Nat) (es : List JsValue) (hb : jsBenignL es = true) :
    jsBenignF ((List.enumFrom n es).map fun p => (toString p.1, p.2)) = true := by
  induction es generalizing n with
  | nil => simp [List.enumFrom, jsBenignF]
  | cons v vs ih =>
    rw [show jsBenignL (v :: vs) = (jsBenign v && jsBenignL vs) from by
      simp [jsBenignL]] at hb
    simp only [Bool.and_eq_true] at hb
    simp only [List.enumFrom, List.map_cons]
    rw [show jsBenignF ((toString n, v) :: ((List.enumFrom (n + 1) vs).map
        fun p => (toString p.1, p.2))) =
        (jsBenign v && jsBenignF ((List.enumFrom (n + 1) vs).map
          fun p => (toString p.1, p.2))) from by simp [jsBenignF]]
    simp [hb.1, ih (n + 1) hb.2]

/-- `jsEntryStep` never throws on a benign node, given that the recursive
filter calls on strictly smaller arguments never throw. -/
theorem jsEntryStep_ok (q key : String) (value : JsValue) (d m1 : Nat) (b : Bool)
    (hrec : ∀ p' m', jsBenignOpt p' = true → jsSizeOpt p' < jsSizeV value →
      ∃ r, jsFilterProperties q p' (d + 1) m' = .ok r)
    (h : jsBenign value = true) :
    ∃ r, jsEntryStep q key value d m1 b = .ok r := by
  unfold jsEntryStep
  split
  · rename_i e he
    obtain ⟨o, ho, -⟩ := jsFieldOk value "type" h
    rw [ho] at he
    exact absurd he (by simp)
  · rename_i tfield htype
    split
    · rename_i e he
      obtain ⟨o, ho, -⟩ := jsFieldOk value "properties" h
      rw [ho] at he
      exact absurd he (by simp)
    · rename_i pfield hprops
      split
      · rename_i e he
        obtain ⟨o, ho, -⟩ := jsFieldOk value "items" h
        rw [ho] at he
        exact absurd he (by simp)
      · rename_i ifield hitems
        have hvalobj : ∀ t, tfield = some t → ∃ fs, value = .obj fs := by
          intro t ht
          rcases jsFieldShape value "type" t (by rw [htype, ht]) with ⟨fs, hfs, -⟩
          exact ⟨fs, hfs⟩
        split_ifs with hc1 hc2
        · have hpb : jsBenignOpt pfield = true := by
            obtain ⟨o, ho, hob⟩ := jsFieldOk value "properties" h
            rw [ho] at hprops
            injection hprops with hp'
            rw [← hp']
            exact hob
          have hpsz : jsSizeOpt pfield < jsSizeV value := by
            obtain ⟨t, ht⟩ : ∃ t, tfield = some (.str t) := by
              rcases tfield with _ | tv
              · simp [isTypeStr] at hc1
              · rcases tv <;> simp_all [isTypeStr]
            obtain ⟨fs, rfl⟩ := hvalobj _ ht
            have hlk : List.lookup "properties" fs = pfield := by
              simpa [jsField] using hprops
            rcases pfield with _ | w
            · simp [jsSizeOpt, jsSizeV]
            · have := lookupWeight "properties" fs w hlk
              simp only [jsSizeOpt, jsSizeV]
              omega
          obtain ⟨fc, hfc⟩ := hrec pfield m1 hpb hpsz
          rw [hfc]
          simp only
          split_ifs <;> exact ⟨_, rfl⟩
        · split
          · rename_i it hc2a hitems2 hc2b
            have hitb : jsBenign it = true := by
              obtain ⟨o, ho, hob⟩ := jsFieldOk value "items" h
              rw [ho] at hitems2
              injection hitems2 with hi'
              rw [hi'] at hob
              simpa [jsBenignOpt] using hob
            split
            · rename_i e he
              obtain ⟨o, ho, -⟩ := jsFieldOk it "properties" hitb
              rw [ho] at he
              exact absurd he (by simp)
            · rename_i wfield hw
              have hwb : jsBenignOpt wfield = true := by
                obtain ⟨o, ho, hob⟩ := jsFieldOk it "properties" hitb
                rw [ho] at hw
                injection hw with hw'
                rw [← hw']
                exact hob
              have hwsz : jsSizeOpt wfield < jsSizeV value := by
                obtain ⟨t, ht⟩ : ∃ t, tfield = some (.str t) := by
                  rcases tfield with _ | tv
                  · simp [isTypeStr] at hc2a
                  · rcases tv <;> simp_all [isTypeStr]
                obtain ⟨fs, rfl⟩ := hvalobj _ ht
                have hlkit : List.lookup "items" fs = some it := by
                  simpa [jsField] using hitems2
                have h1 := lookupWeight "items" fs it hlkit
                rcases wfield with _ | w'
                · simp only [jsSizeOpt, jsSizeV]
                  omega
                · obtain ⟨gs, hgs, hlk2⟩ := jsFieldShape it "properties" w' hw
                  have h2 := lookupWeight "properties" gs w' hlk2
                  rw [hgs] at h1
                  simp only [jsSizeV] at h1
                  simp only [jsSizeOpt, jsSizeV]
                  omega
              obtain ⟨fc, hfc⟩ := hrec wfield m1 hwb hwsz
              rw [hfc]
              simp only
              split_ifs <;> exact ⟨_, rfl⟩
          · exact ⟨_, rfl⟩
        · exact ⟨_, rfl⟩

mutual

/-- On a benign argument the untyped filter never throws. -/
theorem jsFilterProperties_ok (q : String) (p : Option JsValue) (d m : Nat) :
    jsBenignOpt p = true → ∃ r, jsFilterProperties q p d m = .ok r := by
  cases p with
  | none => exact fun _ => ⟨([], m), by simp [jsFilterProperties]⟩
  | some v =>
    intro h
    unfold jsFilterProperties
    split_ifs with htr
    · cases v with
      | str s => exact ⟨_, rfl⟩
      | obj fs =>
        simp only
        exact jsFilterEntries_ok q fs d m (benignDesc_of_obj fs h).2
      | arr es =>
        simp only
        exact jsFilterEntries_ok q _ d m
          (jsBenignF_enum 0 es (by simpa [jsBenignOpt, jsBenign] using h))
      | null => exact ⟨_, rfl⟩
      | bool b => exact ⟨_, rfl⟩
      | num n => exact ⟨_, rfl⟩
    · exact ⟨_, rfl⟩
termination_by jsSizeOpt p
decreasing_by
  all_goals simp only [jsSizeOpt, jsSizeV, List.enum]
  all_goals try rw [enumWeight]
  all_goals omega

theorem jsFilterEntries_ok (q : String) (l : List (String × JsValue)) (d m : Nat) :
    jsBenignF l = true → ∃ r, jsFilterEntries q l d m = .ok r := by
  cases l with
  | nil => exact fun _ => ⟨([], m), by simp [jsFilterEntries]⟩
  | cons hd rest =>
    obtain ⟨key, value⟩ := hd
    intro h
    rw [show jsBenignF ((key, value) :: rest) =
        (jsBenign value && jsBenignF rest) from by simp [jsBenignF]] at h
    simp only [Bool.and_eq_true] at h
    unfold jsFilterEntries
    obtain ⟨b, hbeq⟩ := jsIncludeCheck_ok q key value h.1
    rw [hbeq]
    simp only
    obtain ⟨st, hst⟩ := jsEntryStep_ok q key value d
      (if b ∧ m < d then d else m) b
      (fun p' m' hb hsz => jsFilterProperties_ok q p' (d + 1) m' hb) h.1
    rw [hst]
    simp only
    obtain ⟨tail, htail⟩ := jsFilterEntries_ok q rest d st.2.2 h.2
    rw [htail]
    exact ⟨_, rfl⟩
termination_by jsSizeF l
decreasing_by
  · have hsz' : jsSizeOpt p' < jsSizeV snd := hsz
    simp only [jsSizeF]
    omega
  · simp only [jsSizeF]
    omega

end


theorem filterSchema_some (l : List (String × SchemaNode)) (q : String) :
    filterSchema (some l) q = filterEntries q l 0 0 := by
  simp [filterSchema, filterProperties]

theorem dirMax_zero_of_no_match (q : String) (l : List (String × SchemaNode))
    (d : Nat) :
    deepMatchList q l = false → dirMaxList q l d = 0 := by
  cases l with
  | nil => intro h; simp [dirMaxList]
  | cons hd rest =>
    obtain ⟨key, value⟩ := hd
    intro h
    rw [show deepMatchList q ((key, value) :: rest) =
        ((directMatch q key value || deepMatchList q (childrenOf value)) ||
          deepMatchList q rest) from by simp [deepMatchList]] at h
    simp only [Bool.or_eq_false_iff] at h
    rw [dirMax_cons]
    rw [dirMax_zero_of_no_match q (childrenOf value) (d + 1) h.1.2]
    rw [dirMax_zero_of_no_match q rest d h.2]
    rw [h.1.1]
    simp
termination_by nsizeEntries l
decreasing_by
  · have := childrenOfBound snd
    simp only [nsizeEntries]
    omega
  · simp only [nsizeEntries]
    omega

/-! ### Claims -/

/-- C1: for every properties map `P` and every query `q` of length at least
two, a key appears in the filtered output iff some entry of `P` under that
key matches directly (key or description substring) or has a descendant
that matches directly; moreover every key of the filtered output is a key
of `P`. -/
theorem claim_C1 (P : List (String × SchemaNode)) (q k : String)
    (hq : 2 ≤ q.length) :
    ((k ∈ (filterSchema (some P) q).1.map Prod.fst) ↔
      ∃ v, (k, v) ∈ P ∧ deepMatchNode q k v = true) ∧
    ((k ∈ (filterSchema (some P) q).1.map Prod.fst) → k ∈ P.map Prod.fst) := by
  simp only [filterSchema_some]
  exact ⟨filterEntries_mem q P 0 0 k,
    fun hk => (filterEntries_keys_sublist q P 0 0).subset hk⟩

theorem claim_C1_witness :
    ∃ v, ("ab", v) ∈ [("ab", SchemaNode.mk none none none none [])] ∧
      deepMatchNode "ab" "ab" v = true :=
  (claim_C1 [("ab", SchemaNode.mk none none none none [])] "ab" "ab"
    (by decide)).1.mp (by
      simp [filterSchema, filterProperties, filterEntries, entryStep, placedEntry,
        directMatch, jsIncludes, SchemaNode.type, SchemaNode.description,
        SchemaNode.properties, SchemaNode.items])

/-- C2: the `maxDepth` returned by `filterSchema` equals the greatest depth
at which a node achieves a direct match (`dirMaxList`, written from the
spec; top-level properties sit at depth `0`), and it is `0` when no node
matches at all.  Inclusion via a descendant cannot raise it, since
`dirMaxList` only counts direct matches. -/
theorem claim_C2 (P : List (String × SchemaNode)) (q : String) :
    ((filterSchema (some P) q).2 = dirMaxList q P 0) ∧
    (deepMatchList q P = false → (filterSchema (some P) q).2 = 0) := by
  have h1 : (filterSchema (some P) q).2 = dirMaxList q P 0 := by
    rw [filterSchema_some, filterEntries_max]
    omega
  exact ⟨h1, fun h => by rw [h1]; exact dirMax_zero_of_no_match q P 0 h⟩

theorem claim_C2_witness :
    (filterSchema (some [("a", SchemaNode.mk none none none none [])]) "zzz").2 = 0 :=
  (claim_C2 [("a", SchemaNode.mk none none none none [])] "zzz").2 (by
    simp [deepMatchList, directMatch, jsIncludes, childrenOf, SchemaNode.type,
      SchemaNode.description, SchemaNode.properties, SchemaNode.items,
      show ¬(List.IsInfix ['z', 'z', 'z'] ['a']) from by decide])

/-- C3: for a query of length at most one the filter effect bypasses
filtering: the model handed to the renderer is the original schema and the
expansion depth is reset to the default `2`. -/
theorem claim_C3 (data : SchemaNode) (q : String) (hq : q.length ≤ 1) :
    runFilterEffect data q = (data, 2) := by
  unfold runFilterEffect
  rw [if_neg (by rintro ⟨-, h⟩; omega)]

theorem claim_C3_witness :
    runFilterEffect (SchemaNode.mk none none none none []) "x" =
      (SchemaNode.mk none none none none [], 2) :=
  claim_C3 (SchemaNode.mk none none none none []) "x" (by decide)

/-- C4: on the spec's example schema and the query `"x"`, the filter
retains `a`, retains `b` with its child `c`, and computes `maxDepth = 1`
(`a` matches at depth 0, `c` at depth 1). -/
theorem claim_C4 :
    filterSchema (some [("a", SchemaNode.mk none (some "x") none none []),
      ("b", SchemaNode.mk (some "object") none
        (some [("c", SchemaNode.mk none (some "x") none none [])]) none [])]) "x" =
    ([("a", SchemaNode.mk none (some "x") none none []),
      ("b", SchemaNode.mk (some "object") none
        (some [("c", SchemaNode.mk none (some "x") none none [])]) none [])], 1) := by
  simp [filterSchema, filterProperties, filterEntries, entryStep, placedEntry,
    directMatch, jsIncludes, SchemaNode.type, SchemaNode.description,
    SchemaNode.properties, SchemaNode.items, SchemaNode.withProps]

/-- C5 (amended): a missing `properties` argument degrades to the empty
result via the `if (!properties)` check, and on any input whose reachable
nodes are non-`null` and whose `description` fields are strings, arrays or
falsy values (`jsBenign`), the filter completes without throwing.  The
claim as frozen is refuted by `claim_C5_counterexample`: a `null` property
value is a non-object node value on which the filter throws a `TypeError`
instead of degrading to "no match". -/
theorem claim_C5 (q : String) (p : Option JsValue) (d m : Nat)
    (hb : jsBenignOpt p = true) :
    (jsFilterProperties q none d m = Except.ok ([], m)) ∧
    (∃ r, jsFilterProperties q p d m = Except.ok r) :=
  ⟨by simp [jsFilterProperties], jsFilterProperties_ok q p d m hb⟩

/-- C5, counterexample to the claim as frozen: on the properties map
`\x7b a: null \x7d` and the query `"zz"`, reading `a.description` on line
66 throws a `TypeError` — the filter fails instead of degrading to
"no match". -/
theorem claim_C5_counterexample :
    jsFilterProperties "zz" (some (.obj [("a", JsValue.null)])) 0 0 =
      .error () := by
  simp [jsFilterProperties, jsFilterEntries, jsIncludeCheck, jsField, jsIncludes,
    jsTruthy, jsEntries, jsDescrMatch,
    show ¬(List.IsInfix ['z', 'z'] ['a']) from by decide]

theorem claim_C5_witness :
    ∃ r, jsFilterProperties "zz" (some (.obj [("a", JsValue.num 1)])) 0 0 =
      Except.ok r :=
  (claim_C5 "zz" (some (.obj [("a", JsValue.num 1)])) 0 0 (by decide)).2

/-- C6: filtering an already-filtered map again with the same query (of
length at least two) yields the same structure — no further shrinkage and
no change. -/
theorem claim_C6 (P : List (String × SchemaNode)) (q : String)
    (hq : 2 ≤ q.length) :
    (filterSchema (some ((filterSchema (some P) q).1)) q).1 =
      (filterSchema (some P) q).1 := by
  rw [filterSchema_some, filterSchema_some]
  exact filterEntries_idem q P 0 0 0 0

theorem claim_C6_witness :
    (filterSchema (some ((filterSchema
        (some [("ab", SchemaNode.mk none none none none [])]) "ab").1)) "ab").1 =
      (filterSchema (some [("ab", SchemaNode.mk none none none none [])]) "ab").1 :=
  claim_C6 [("ab", SchemaNode.mk none none none none [])] "ab" (by decide)

/-- C7: a container included because a descendant matched is placed as a
copy of the original node with only its `properties` (object case) or
`items.properties` (array case) replaced by the filtered children — the
`withProps`/`withItemsProps` copies keep every other field — and this copy
is what the output holds under the key even when the container also
matches directly (the placement on line 92 is skipped once the copy is
present). -/
theorem claim_C7 (P : List (String × SchemaNode)) (q k : String)
    (v : SchemaNode) (cp : List (String × SchemaNode)) (it : SchemaNode)
    (hnd : (P.map Prod.fst).Nodup) (hmem : (k, v) ∈ P) :
    (v.type = some "object" → v.properties = some cp →
      (filterSchema (some cp) q).1 ≠ [] →
      List.lookup k (filterSchema (some P) q).1 =
        some (v.withProps ((filterSchema (some cp) q).1))) ∧
    (v.type = some "array" → v.items = some it → it.properties = some cp →
      (filterSchema (some cp) q).1 ≠ [] →
      List.lookup k (filterSchema (some P) q).1 =
        some (v.withItemsProps ((filterSchema (some cp) q).1))) := by
  constructor
  · intro ht hp hne
    rw [filterSchema_some] at hne ⊢
    rw [filterSchema_some]
    exact filterEntries_lookup_obj q P 0 0 k v cp hnd hmem ht hp hne
  · intro ht hi hp hne
    rw [filterSchema_some] at hne ⊢
    rw [filterSchema_some]
    exact filterEntries_lookup_arr q P 0 0 k v it cp hnd hmem ht hi hp hne

theorem claim_C7_witness :
    List.lookup "b" (filterSchema (some [("b", SchemaNode.mk (some "object") none
        (some [("c", SchemaNode.mk none (some "x") none none [])]) none [])]) "x").1 =
      some ((SchemaNode.mk (some "object") none
        (some [("c", SchemaNode.mk none (some "x") none none [])]) none []).withProps
        ((filterSchema (some [("c", SchemaNode.mk none (some "x") none none [])]) "x").1)) :=
  (claim_C7 [("b", SchemaNode.mk (some "object") none
      (some [("c", SchemaNode.mk none (some "x") none none [])]) none [])] "x" "b"
    (SchemaNode.mk (some "object") none
      (some [("c", SchemaNode.mk none (some "x") none none [])]) none [])
    [("c", SchemaNode.mk none (some "x") none none [])]
    (SchemaNode.mk none none none none [])
    (by simp) (by simp)).1 rfl rfl (by
      simp [filterSchema, filterProperties, filterEntries, entryStep, placedEntry,
        directMatch, jsIncludes, SchemaNode.type, SchemaNode.description,
        SchemaNode.properties, SchemaNode.items])

/-- C8: the relative order of the retained keys in the filtered output is
their insertion order in the original map: the output key list is a
sublist of the input key list. -/
theorem claim_C8 (P : List (String × SchemaNode)) (q : String) :
    ((filterSchema (some P) q).1.map Prod.fst).Sublist (P.map Prod.fst) := by
  rw [filterSchema_some]
  exact filterEntries_keys_sublist q P 0 0

/-- C9: on every finite schema tree the recursive filter terminates — any
fuel bound above the input's size makes the fuel-indexed mirror of the
unguarded recursion complete with the filter's value — while no uniform
fuel bound works for all inputs: the depth-`fuel` chain exhausts `fuel`
units, which is how unbounded recursion on cyclic (infinitely deep)
schemas manifests in a model whose values are finite trees. -/
theorem claim_C9 :
    (∀ q p d m fuel, nsizeProps p < fuel →
      filterPropertiesF q fuel p d m = some (filterProperties q p d m)) ∧
    (∀ q fuel d m,
      filterPropertiesF q fuel (some [("k", chainSchema fuel)]) d m = none) :=
  ⟨fun q p d m fuel h => filterPropertiesF_eq q fuel p d m h,
   fun q fuel d m => chainSchema_exhausts q fuel d m⟩

theorem claim_C9_witness :
    filterPropertiesF "ab" 1 none 0 0 = some (filterProperties "ab" none 0 0) :=
  claim_C9.1 "ab" none 0 0 1 (by decide)

/-- C10: every node retained in the filtered output sits at a path (hence
the same depth) that resolves in the original tree; all its ancestors are
retained (every non-empty path prefix resolves in the output); and a
retained node that matches directly lies at a depth no greater than the
returned `maxDepth`. -/
theorem claim_C10 (P : List (String × SchemaNode)) (q : String)
    (p : List String) (x : SchemaNode)
    (hq : 2 ≤ q.length) (hnd : nodupKeysDeep P = true)
    (hx : nodeAt ((filterSchema (some P) q).1) p = some x) :
    (∃ y, nodeAt P p = some y) ∧
    (∀ p', p' ≠ [] → p' <+: p →
      ∃ z, nodeAt ((filterSchema (some P) q).1) p' = some z) ∧
    (∀ k, p.getLast? = some k → directMatch q k x = true →
      p.length - 1 ≤ (filterSchema (some P) q).2) := by
  rw [filterSchema_some] at hx
  obtain ⟨y, hy, hdesc⟩ := nodeAt_filter q p P 0 0 x hnd hx
  refine ⟨⟨y, hy⟩, ?_, ?_⟩
  · intro p' hne hpre
    rw [filterSchema_some]
    exact nodeAt_ancestors p ((filterEntries q P 0 0).1) p' x hx hne hpre
  · intro k hk hdm
    have hdmy : directMatch q k y = true := by
      rw [directMatch_congr q k y x hdesc]
      exact hdm
    have hb := nodeAt_dirMax q p P 0 y hy k hk hdmy
    have hm : (filterSchema (some P) q).2 = dirMaxList q P 0 := by
      rw [filterSchema_some, filterEntries_max]
      omega
    omega

theorem claim_C10_witness :
    ∃ y, nodeAt [("ab", SchemaNode.mk none none none none [])] ["ab"] = some y :=
  (claim_C10 [("ab", SchemaNode.mk none none none none [])] "ab" ["ab"]
    (SchemaNode.mk none none none none []) (by decide)
    (by simp [nodupKeysDeep, childrenNodup, childrenOf, SchemaNode.type,
      SchemaNode.properties, SchemaNode.items])
    (by simp [nodeAt_single, filterSchema, filterProperties, filterEntries,
      entryStep, placedEntry, directMatch, jsIncludes, SchemaNode.type,
      SchemaNode.description, SchemaNode.properties, SchemaNode.items,
      List.lookup])).1
